import Mathlib

/-!
A shallow embedding of the ordered multi-queue sensor collator
(`cartographer/sensor/internal/ordered_multi_queue.cc`).

Timestamps (`common::Time`) are modelled as `Int`; the minimum representable
time `common::Time::min()` is modelled as `none` of an `Option Int`, which
compares below every actual timestamp.  The per-stream sink callbacks are
modelled by a ghost log of dispatch records appended exactly when the source
invokes `next_queue->callback(...)`; items dropped on the cold path and items
accepted by `Add` are likewise recorded in ghost fields that never influence
control flow.  `std::map` iteration order is modelled by keeping the queue
collection as a list sorted by key at insertion time.  The `Dispatch` loop is
embedded with explicit fuel (one unit per delivered or dropped item), so that
all operations stay executable; the fuel budget `flatLen + 1` is sufficient
because every loop iteration removes one item from some queue.
-/

namespace OrderedMultiQueue

/-- Comparison `l ≤ t` where `l : Option Int` treats `none` as the minimum
representable time `common::Time::min()`. -/
def oleb : Option Int → Int → Bool
  | none, _ => true
  | some a, t => a ≤ t

/-- Strict comparison `l < t` with `none` as the minimum representable time. -/
def oltb : Option Int → Int → Bool
  | none, _ => true
  | some a, t => a < t

/-- Comparison between two extended times (`none` is the minimum). -/
def olebO : Option Int → Option Int → Bool
  | none, _ => true
  | some _, none => false
  | some a, some b => a ≤ b

/-- Comparison `t ≤ l` against an extended time `l`. -/
def tleb (t : Int) : Option Int → Bool
  | none => false
  | some a => t ≤ a

/-- Maximum of two extended times, mirroring `std::max` starting from
`common::Time::min()` in `GetCommonStartTime`. -/
def omax : Option Int → Option Int → Option Int
  | none, b => b
  | some a, none => some a
  | some a, some b => some (max a b)

/-- Key of one input stream: the `(trajectory_id, sensor_id)` pair `QueueKey`. -/
structure QueueKey where
  trajectoryId : Int
  sensorId : String
deriving DecidableEq, Repr

/-- A sensor data item; the collator observes only its timestamp
(`Data::GetTime`). -/
structure Data where
  time : Int
deriving DecidableEq, Repr

/-- One per-stream record: the FIFO of pending items (front first) and the
`finished` flag.  The bound sink callback is modelled by the ghost dispatch
log in the collator state. -/
structure Queue where
  items : List Data
  finished : Bool
deriving DecidableEq, Repr

/-- Ghost tag naming the branch of `Dispatch` that delivered an item:
the happy case (`time >= common_start_time`), the finished thin-queue case,
or the cold-deep straddling case. -/
inductive DispatchCase where
  | warm
  | thinFinished
  | straddle
deriving DecidableEq, Repr

/-- Ghost record of one sink-callback invocation: the stream key, the item,
the common start time used for the decision, the timestamp of the successor
item left at the front of the stream (if any), and the branch taken. -/
structure DispatchRecord where
  key : QueueKey
  data : Data
  commonStart : Option Int
  succ : Option Int
  dcase : DispatchCase
deriving DecidableEq, Repr

/-- Fatal `CHECK` failures and crashes of the collator, plus the fuel marker
of the embedding (proved unreachable for the budget used by `Dispatch`). -/
inductive Fatal where
  | duplicateQueue
  | unknownQueue
  | alreadyFinished
  | nonSortedData
  | nullDeref
  | getBlockerOnEmpty
  | outOfFuel
deriving DecidableEq, Repr

/-- The collator state: the keyed queue collection `queues_`,
`last_dispatched_time_`, `blocker_`, `common_start_time_per_trajectory_`,
and the three ghost logs. -/
structure State where
  queues : List (QueueKey × Queue)
  lastDispatchedTime : Option Int
  blocker : QueueKey
  commonStartTimes : List (Int × Option Int)
  dispatched : List DispatchRecord
  dropped : List (QueueKey × Data)
  accepted : List (QueueKey × Data)
deriving DecidableEq, Repr

/-- Default-constructed collator: empty collection, minimum dispatched time,
default-constructed blocker key. -/
def initState : State :=
  { queues := [], lastDispatchedTime := none, blocker := ⟨0, ""⟩,
    commonStartTimes := [], dispatched := [], dropped := [], accepted := [] }

/-- Lookup in the common-start-time cache (`std::map<int, common::Time>`). -/
def lookupC (t : Int) : List (Int × Option Int) → Option (Option Int)
  | [] => none
  | e :: rest => if e.1 = t then some e.2 else lookupC t rest

/-- `queues_.find(key)`. -/
def findQueue (k : QueueKey) : List (QueueKey × Queue) → Option Queue
  | [] => none
  | e :: rest => if e.1 = k then some e.2 else findQueue k rest

/-- Lexicographic order on `QueueKey` (the `std::map` key order). -/
def keyLtb (a b : QueueKey) : Bool :=
  decide (a.trajectoryId < b.trajectoryId) ||
    (decide (a.trajectoryId = b.trajectoryId) &&
      decide (compare a.sensorId b.sensorId = Ordering.lt))

/-- Insertion of a fresh empty stream record at its key-ordered position
(`queues_[queue_key]` on an absent key). -/
def insertSorted (k : QueueKey) : List (QueueKey × Queue) → List (QueueKey × Queue)
  | [] => [(k, ⟨[], false⟩)]
  | e :: rest =>
    if keyLtb k e.1 then (k, ⟨[], false⟩) :: e :: rest
    else e :: insertSorted k rest

/-- `it->second.queue.Push(std::move(data))`: append `d` at the back of the
FIFO of the (unique) entry with key `k`. -/
def pushItem (k : QueueKey) (d : Data) : List (QueueKey × Queue) → List (QueueKey × Queue)
  | [] => []
  | e :: rest =>
    if e.1 = k then (e.1, ⟨e.2.items ++ [d], e.2.finished⟩) :: rest
    else e :: pushItem k d rest

/-- `queue.finished = true` on the entry with key `k`. -/
def setFinished (k : QueueKey) (qs : List (QueueKey × Queue)) : List (QueueKey × Queue) :=
  qs.map fun e => if e.1 = k then (e.1, ⟨e.2.items, true⟩) else e

/-- All pending items of the collection, each tagged with its stream key,
in collection-then-FIFO order. -/
def flatKD : List (QueueKey × Queue) → List (QueueKey × Data)
  | [] => []
  | e :: rest => e.2.items.map (fun d => (e.1, d)) ++ flatKD rest

/-- Total number of pending items. -/
def flatLen (qs : List (QueueKey × Queue)) : Nat := (flatKD qs).length

/-- The scan-loop accumulator: the candidate stream with the smallest head
timestamp seen so far (`next_data` / `next_queue` / `next_queue_key`),
kept as a zipper over the surviving already-scanned entries:
the survivors are `pre ++ (key, ⟨head :: tail, fin⟩) :: mid`. -/
structure Best where
  pre : List (QueueKey × Queue)
  key : QueueKey
  head : Data
  tail : List Data
  fin : Bool
  mid : List (QueueKey × Queue)
deriving DecidableEq, Repr

/-- The candidate entry held by the accumulator. -/
def Best.entry (b : Best) : QueueKey × Queue := (b.key, ⟨b.head :: b.tail, b.fin⟩)

/-- The surviving already-scanned entries, in order. -/
def flattenBest : Option Best → List (QueueKey × Queue)
  | none => []
  | some b => b.pre ++ b.entry :: b.mid

/-- One step of candidate tracking: the current entry `(k, ⟨hd :: tl, fin⟩)`
replaces the candidate iff its head time is strictly smaller
(`data->GetTime() < next_data->GetTime()`); otherwise it is recorded after
the candidate. -/
def updBest (b : Option Best) (k : QueueKey) (hd : Data) (tl : List Data) (fin : Bool) : Best :=
  match b with
  | none => ⟨[], k, hd, tl, fin, []⟩
  | some bb =>
    if hd.time < bb.head.time then
      ⟨bb.pre ++ bb.entry :: bb.mid, k, hd, tl, fin, []⟩
    else
      ⟨bb.pre, bb.key, bb.head, bb.tail, bb.fin, bb.mid ++ [(k, ⟨hd :: tl, fin⟩)]⟩

/-- Outcome of the scan loop of `Dispatch`: the `CHECK_LE` failure, the
`CannotMakeProgress` early return (with the queue collection after the
erasures performed so far), the all-erased outcome, or a selected candidate
surrounded by the other surviving entries. -/
inductive ScanResult where
  | fatal (k : QueueKey)
  | blocked (qs : List (QueueKey × Queue)) (k : QueueKey)
  | empty
  | found (pre : List (QueueKey × Queue)) (k : QueueKey) (hd : Data) (tl : List Data)
      (fin : Bool) (post : List (QueueKey × Queue))
deriving Repr

/-- The scan loop (`for (auto it = queues_.begin(); ...)`): erase finished
empty queues, return early on an empty unfinished queue, track the minimal
head, and check `CHECK_LE(last_dispatched_time_, next_data->GetTime())` on
the running minimum after every non-empty entry. -/
def scanAux (L : Option Int) (b : Option Best) : List (QueueKey × Queue) → ScanResult
  | [] =>
    match b with
    | none => .empty
    | some bb => .found bb.pre bb.key bb.head bb.tail bb.fin bb.mid
  | (k, q) :: rest =>
    match q.items with
    | [] =>
      if q.finished then scanAux L b rest
      else .blocked (flattenBest b ++ (k, q) :: rest) k
    | hd :: tl =>
      let nb := updBest b k hd tl q.finished
      if oleb L nb.head.time then scanAux L (some nb) rest
      else .fatal k

/-- The entries the scan loop examines before returning: it stops inclusively
at the first empty unfinished queue or at the first head older than
`last_dispatched_time_`, and skips erased (empty finished) entries. -/
def scanVisited (L : Option Int) : List (QueueKey × Queue) → List (QueueKey × Queue)
  | [] => []
  | (k, q) :: rest =>
    match q.items with
    | [] => if q.finished then scanVisited L rest else [(k, q)]
    | hd :: _ => (k, q) :: (if oleb L hd.time then scanVisited L rest else [])

/-- Whether the scan ended in the fatal `CHECK_LE`. -/
def ScanResult.isFatal : ScanResult → Bool
  | .fatal _ => true
  | _ => false

/-- The fold inside `GetCommonStartTime`: maximum of the head timestamps of
all queues of the trajectory, with the unguarded `Peek<Data>()->GetTime()`
dereference crashing on an empty queue. -/
def trajHeadMax (traj : Int) (acc : Option Int) :
    List (QueueKey × Queue) → Except Fatal (Option Int)
  | [] => .ok acc
  | (k, q) :: rest =>
    if k.trajectoryId = traj then
      match q.items with
      | [] => .error .nullDeref
      | hd :: _ => trajHeadMax traj (omax acc (some hd.time)) rest
    else trajHeadMax traj acc rest

/-- `GetCommonStartTime`: return the cached value if present; otherwise
compute the maximum head time over the trajectory queues starting from
`common::Time::min()` and cache it. -/
def GetCommonStartTime (cache : List (Int × Option Int)) (traj : Int)
    (qs : List (QueueKey × Queue)) : Except Fatal (Option Int × List (Int × Option Int)) :=
  match lookupC traj cache with
  | some t => .ok (t, cache)
  | none =>
    match trajHeadMax traj none qs with
    | .error e => .error e
    | .ok t => .ok (t, (traj, t) :: cache)

/-- `CannotMakeProgress`: record the blocker (the logging it also performs is
not modelled). -/
def CannotMakeProgress (s : State) (k : QueueKey) : State := { s with blocker := k }

/-- Deliver the candidate head: set `last_dispatched_time_`, pop the item and
invoke the sink callback (ghost-logged with the decision data). -/
def emit (s : State) (cache : List (Int × Option Int)) (pre : List (QueueKey × Queue))
    (k : QueueKey) (hd : Data) (tl : List Data) (fin : Bool)
    (post : List (QueueKey × Queue)) (cst : Option Int) (c : DispatchCase) : State :=
  { s with
    queues := pre ++ (k, ⟨tl, fin⟩) :: post,
    commonStartTimes := cache,
    lastDispatchedTime := some hd.time,
    dispatched := s.dispatched ++ [⟨k, hd, cst, (tl.head?).map Data.time, c⟩] }

/-- Drop the candidate head on the cold path (pop without callback). -/
def dropFront (s : State) (cache : List (Int × Option Int)) (pre : List (QueueKey × Queue))
    (k : QueueKey) (hd : Data) (tl : List Data) (fin : Bool)
    (post : List (QueueKey × Queue)) : State :=
  { s with
    queues := pre ++ (k, ⟨tl, fin⟩) :: post,
    commonStartTimes := cache,
    dropped := s.dropped ++ [(k, hd)] }

/-- The `while (true)` loop of `Dispatch`, with explicit fuel.  Each iteration
scans, then either halts or delivers/drops exactly one item and loops. -/
def DispatchF : Nat → State → Except Fatal State
  | 0, _ => .error .outOfFuel
  | n + 1, s =>
    match scanAux s.lastDispatchedTime none s.queues with
    | .fatal _ => .error .nonSortedData
    | .blocked qs k => .ok (CannotMakeProgress { s with queues := qs } k)
    | .empty => .ok { s with queues := [] }
    | .found pre k hd tl fin post =>
      match GetCommonStartTime s.commonStartTimes k.trajectoryId
          (pre ++ (k, ⟨hd :: tl, fin⟩) :: post) with
      | .error e => .error e
      | .ok (cst, cache) =>
        if oleb cst hd.time then
          DispatchF n (emit s cache pre k hd tl fin post cst .warm)
        else if tl.isEmpty then
          if fin then DispatchF n (emit s cache pre k hd tl fin post cst .thinFinished)
          else .ok (CannotMakeProgress
            { s with queues := pre ++ (k, ⟨hd :: tl, fin⟩) :: post,
                     commonStartTimes := cache } k)
        else
          match tl.head? with
          | none => .error .nullDeref
          | some d1 =>
            if oltb cst d1.time then
              DispatchF n (emit s cache pre k hd tl fin post cst .straddle)
            else DispatchF n (dropFront s cache pre k hd tl fin post)

/-- `Dispatch()`: run the loop with a sufficient fuel budget (one unit per
pending item, plus one final halting iteration). -/
def Dispatch (s : State) : Except Fatal State := DispatchF (flatLen s.queues + 1) s

/-- `AddQueue`: `CHECK_EQ(queues_.count(queue_key), 0)`, then insert an empty
unfinished record (the callback is bound in the ghost log model). -/
def AddQueue (s : State) (k : QueueKey) : Except Fatal State :=
  match findQueue k s.queues with
  | some _ => .error .duplicateQueue
  | none => .ok { s with queues := insertSorted k s.queues }

/-- `MarkQueueAsFinished`: `CHECK` the key exists and is not yet finished,
set the flag and run `Dispatch`. -/
def MarkQueueAsFinished (s : State) (k : QueueKey) : Except Fatal State :=
  match findQueue k s.queues with
  | none => .error .unknownQueue
  | some q =>
    if q.finished then .error .alreadyFinished
    else Dispatch { s with queues := setFinished k s.queues }

/-- `Add`: ignore data for unregistered keys (rate-limited warning only),
otherwise push and run `Dispatch`.  The push is ghost-logged in `accepted`. -/
def Add (s : State) (k : QueueKey) (d : Data) : Except Fatal State :=
  match findQueue k s.queues with
  | none => .ok s
  | some _ =>
    Dispatch { s with queues := pushItem k d s.queues, accepted := s.accepted ++ [(k, d)] }

/-- The second loop of `Flush`: mark each collected key as finished. -/
def markAll (s : State) : List QueueKey → Except Fatal State
  | [] => .ok s
  | k :: rest =>
    match MarkQueueAsFinished s k with
    | .error e => .error e
    | .ok s1 => markAll s1 rest

/-- The first loop of `Flush`: collect the keys of the unfinished queues. -/
def unfinishedKeys (s : State) : List QueueKey :=
  (s.queues.filter (fun e => !e.2.finished)).map (fun e => e.1)

/-- `Flush`: mark every currently-unfinished queue as finished. -/
def Flush (s : State) : Except Fatal State := markAll s (unfinishedKeys s)

/-- `GetBlocker`: `CHECK(!queues_.empty())`, then return `blocker_`. -/
def GetBlocker (s : State) : Except Fatal QueueKey :=
  if s.queues = [] then .error .getBlockerOnEmpty else .ok s.blocker

/-- One producer/controller operation on the collator. -/
inductive Op where
  | addQueue (k : QueueKey)
  | add (k : QueueKey) (d : Data)
  | markQueueAsFinished (k : QueueKey)
  | flush
deriving DecidableEq, Repr

/-- Run one operation. -/
def runOp (s : State) : Op → Except Fatal State
  | .addQueue k => AddQueue s k
  | .add k d => Add s k d
  | .markQueueAsFinished k => MarkQueueAsFinished s k
  | .flush => Flush s

/-- Run a sequence of operations, stopping at the first fatal check. -/
def runOps (s : State) : List Op → Except Fatal State
  | [] => .ok s
  | op :: rest =>
    match runOp s op with
    | .error e => .error e
    | .ok s1 => runOps s1 rest

/-- The timestamps passed to sink callbacks, in callback order. -/
def logTimes (s : State) : List Int := s.dispatched.map (fun r => r.data.time)

/-- The delivered items as `(key, timestamp)` pairs, in callback order. -/
def dispatchedKT (s : State) : List (QueueKey × Int) :=
  s.dispatched.map (fun r => (r.key, r.data.time))

/-- The delivered items as `(key, item)` pairs, in callback order. -/
def dispKD (s : State) : List (QueueKey × Data) :=
  s.dispatched.map (fun r => (r.key, r.data))

/-- The output invariant: the logged callback timestamps are non-decreasing
and all of them are bounded by `last_dispatched_time_`. -/
def logInv (s : State) : Prop :=
  List.Sorted (· ≤ ·) (logTimes s) ∧ ∀ t ∈ logTimes s, tleb t s.lastDispatchedTime = true

/-- Item conservation: every accepted item is pending, delivered or dropped
(as multisets). -/
def consInv (s : State) : Prop :=
  (↑s.accepted : Multiset (QueueKey × Data)) = ↑(dispKD s) + ↑s.dropped + ↑(flatKD s.queues)

/-- The per-delivery property: warm-case deliveries are at or after the
common start time; the remaining deliveries are the finished-thin case or the
straddling cold-deep case (whose recorded successor is beyond the common
start time). -/
def recPhi (r : DispatchRecord) : Prop :=
  oleb r.commonStart r.data.time = true ∨ r.dcase = .thinFinished ∨
    (r.dcase = .straddle ∧ ∃ ts, r.succ = some ts ∧ oltb r.commonStart ts = true)

/-- All logged deliveries satisfy `recPhi`. -/
def recInv (s : State) : Prop := ∀ r ∈ s.dispatched, recPhi r

/-- Entry traceback: every entry of `A` has an entry of `B` with the same key
and the same finished flag. -/
def tracks (A B : List (QueueKey × Queue)) : Prop :=
  ∀ e ∈ A, ∃ q, (e.1, q) ∈ B ∧ q.finished = e.2.finished

/-- Whenever `Dispatch` returns, either the collection is empty or some
remaining stream is unfinished. -/
def Jinv (s : State) : Prop := s.queues = [] ∨ ∃ e ∈ s.queues, e.2.finished = false

/-- The bundled reachability invariant carried along every operation. -/
def Inv (s : State) : Prop := logInv s ∧ consInv s ∧ recInv s ∧ Jinv s

/-- Extract the state of a successful run (scratch accessor for concrete
scenarios; a failed run falls back to the initial state). -/
def stateOf (r : Except Fatal State) : State :=
  match r with
  | .ok s => s
  | .error _ => initState

/-- Stream A of the concrete scenarios: trajectory 0, sensor id x. -/
def kx : QueueKey := ⟨0, "x"⟩

/-- Stream B of the concrete scenarios: trajectory 0, sensor id y. -/
def ky : QueueKey := ⟨0, "y"⟩

/-- Scenario S1: interleaved pushes to two streams, then both finished. -/
def s1ops : List Op :=
  [.addQueue kx, .addQueue ky, .add kx ⟨10⟩, .add kx ⟨30⟩, .add ky ⟨20⟩, .add ky ⟨40⟩,
   .markQueueAsFinished kx, .markQueueAsFinished ky]

/-- The first four operations of scenario S1. -/
def s1mid : List Op := [.addQueue kx, .addQueue ky, .add kx ⟨10⟩, .add kx ⟨30⟩]

/-- The remaining operations of scenario S1. -/
def s1rest : List Op :=
  [.add ky ⟨20⟩, .add ky ⟨40⟩, .markQueueAsFinished kx, .markQueueAsFinished ky]

/-- Scenario S2: stream A pushes timestamps 1, 2, 3, 100 and stream B pushes
50, 60; then both streams are finished. -/
def s2ops : List Op :=
  [.addQueue kx, .addQueue ky, .add kx ⟨1⟩, .add kx ⟨2⟩, .add kx ⟨3⟩, .add kx ⟨100⟩,
   .add ky ⟨50⟩, .add ky ⟨60⟩, .markQueueAsFinished kx, .markQueueAsFinished ky]

/-- Scenario S3 prefix: A pushes one item below the common start time and is
finished; B pushes two items at and after it. -/
def c5ops : List Op :=
  [.addQueue kx, .addQueue ky, .add kx ⟨5⟩, .add ky ⟨10⟩, .add ky ⟨20⟩,
   .markQueueAsFinished kx]

/-- A run that halts in the cold-thin-unfinished case: the candidate stream A
holds one item below the common start time and is not finished. -/
def c6ops : List Op := [.addQueue kx, .addQueue ky, .add kx ⟨5⟩, .add ky ⟨10⟩]

/-- A collator with a single registered stream whose FIFO is empty. -/
def c6wSt : State :=
  { queues := [(ky, ⟨[], false⟩)], lastDispatchedTime := none, blocker := ⟨0, ""⟩,
    commonStartTimes := [], dispatched := [], dropped := [], accepted := [] }

/-- Register one stream and immediately finish it: the dispatch drive erases
the empty finished record and the collection becomes empty. -/
def c7ops : List Op := [.addQueue kx, .markQueueAsFinished kx]

/-- A collator whose common-start cache already holds trajectory 0. -/
def c8wSt : State :=
  { queues := [], lastDispatchedTime := none, blocker := ⟨0, ""⟩,
    commonStartTimes := [(0, some 5)], dispatched := [], dropped := [], accepted := [] }

/-- Operations run after the cache entry exists: registering a stream of the
same trajectory and pushing to it must not update the cached value. -/
def c8wOps : List Op := [.addQueue kx, .add kx ⟨9⟩]

/-- Items added to a finished stream: A receives 5, is finished, then
receives 7; B keeps the trajectory alive and is finished last. -/
def c10ops : List Op :=
  [.addQueue kx, .addQueue ky, .add kx ⟨5⟩, .markQueueAsFinished kx, .add kx ⟨7⟩,
   .add ky ⟨6⟩, .markQueueAsFinished ky]

/-- A collator with one finished stream that still holds an item. -/
def c10wSt : State :=
  { queues := [(kx, ⟨[⟨5⟩], true⟩)], lastDispatchedTime := none, blocker := ⟨0, ""⟩,
    commonStartTimes := [], dispatched := [], dropped := [], accepted := [] }

/-- Operations for the completeness witness: one stream, one item, flushed. -/
def c3wOps : List Op := [.addQueue kx, .add kx ⟨10⟩]

/-- Whether a run crashed on the unguarded `Peek` dereference. -/
def isNullDeref : Except Fatal State → Bool
  | .error .nullDeref => true
  | _ => false

theorem olebO_refl (x : Option Int) : olebO x x = true := by
  cases x <;> simp [olebO]

theorem olebO_trans {x y z : Option Int} (h1 : olebO x y = true) (h2 : olebO y z = true) :
    olebO x z = true := by
  cases x <;> cases y <;> cases z <;> simp_all [olebO]
  omega

theorem oleb_of_olebO {x y : Option Int} {t : Int} (h1 : olebO x y = true)
    (h2 : oleb y t = true) : oleb x t = true := by
  cases x <;> cases y <;> simp_all [olebO, oleb]
  omega

theorem tleb_oleb_le {t u : Int} {x : Option Int} (h1 : tleb t x = true)
    (h2 : oleb x u = true) : t ≤ u := by
  cases x <;> simp_all [tleb, oleb]
  omega

theorem olebO_some_of_oleb {x : Option Int} {t : Int} (h : oleb x t = true) :
    olebO x (some t) = true := by
  cases x <;> simp_all [oleb, olebO]

theorem flatKD_append (a b : List (QueueKey × Queue)) :
    flatKD (a ++ b) = flatKD a ++ flatKD b := by
  induction a with
  | nil => simp [flatKD]
  | cons e rest ih => simp [flatKD, ih]

theorem flattenBest_updBest (b : Option Best) (k : QueueKey) (hd : Data) (tl : List Data)
    (fin : Bool) :
    flattenBest (some (updBest b k hd tl fin)) = flattenBest b ++ [(k, ⟨hd :: tl, fin⟩)] := by
  cases b with
  | none => simp [updBest, flattenBest, Best.entry]
  | some bb =>
    by_cases h : hd.time < bb.head.time <;>
      simp [updBest, h, flattenBest, Best.entry]

theorem scanAux_found_flat {L : Option Int} :
    ∀ (rem : List (QueueKey × Queue)) (b : Option Best) {pre : List (QueueKey × Queue)}
      {k : QueueKey} {hd : Data} {tl : List Data} {fin : Bool}
      {post : List (QueueKey × Queue)},
    scanAux L b rem = .found pre k hd tl fin post →
    flatKD (pre ++ (k, ⟨hd :: tl, fin⟩) :: post) = flatKD (flattenBest b ++ rem) := by
  intro rem
  induction rem with
  | nil =>
    intro b pre k hd tl fin post h
    cases b with
    | none => simp [scanAux] at h
    | some bb =>
      simp [scanAux] at h
      obtain ⟨rfl, rfl, rfl, rfl, rfl, rfl⟩ := h
      simp [flattenBest, Best.entry]
  | cons e rest ih =>
    intro b pre k hd tl fin post h
    obtain ⟨k0, q0⟩ := e
    obtain ⟨items0, fin0⟩ := q0
    cases items0 with
    | nil =>
      by_cases hf : fin0 = true
      · subst hf
        simp [scanAux] at h
        rw [ih b h]
        simp [flatKD_append, flatKD]
      · simp [scanAux, hf] at h
    | cons hd0 tl0 =>
      simp only [scanAux] at h
      by_cases hc : oleb L (updBest b k0 hd0 tl0 fin0).head.time = true
      · rw [if_pos hc] at h
        rw [ih (some (updBest b k0 hd0 tl0 fin0)) h, flattenBest_updBest]
        simp [flatKD_append, flatKD]
      · rw [if_neg hc] at h
        simp at h

theorem scanAux_found_checked {L : Option Int} :
    ∀ (rem : List (QueueKey × Queue)) (b : Option Best) {pre : List (QueueKey × Queue)}
      {k : QueueKey} {hd : Data} {tl : List Data} {fin : Bool}
      {post : List (QueueKey × Queue)},
    scanAux L b rem = .found pre k hd tl fin post →
    (∀ bb, b = some bb → oleb L bb.head.time = true) →
    oleb L hd.time = true := by
  intro rem
  induction rem with
  | nil =>
    intro b pre k hd tl fin post h hb
    cases b with
    | none => simp [scanAux] at h
    | some bb =>
      simp [scanAux] at h
      obtain ⟨rfl, rfl, rfl, rfl, rfl, rfl⟩ := h
      exact hb bb rfl
  | cons e rest ih =>
    intro b pre k hd tl fin post h hb
    obtain ⟨k0, q0⟩ := e
    obtain ⟨items0, fin0⟩ := q0
    cases items0 with
    | nil =>
      by_cases hf : fin0 = true
      · subst hf
        simp [scanAux] at h
        exact ih b h hb
      · simp [scanAux, hf] at h
    | cons hd0 tl0 =>
      simp only [scanAux] at h
      by_cases hc : oleb L (updBest b k0 hd0 tl0 fin0).head.time = true
      · rw [if_pos hc] at h
        exact ih (some (updBest b k0 hd0 tl0 fin0)) h
          (by intro bb hbb; cases hbb; exact hc)
      · rw [if_neg hc] at h
        simp at h

theorem scanAux_found_nonempty {L : Option Int} :
    ∀ (rem : List (QueueKey × Queue)) (b : Option Best) {pre : List (QueueKey × Queue)}
      {k : QueueKey} {hd : Data} {tl : List Data} {fin : Bool}
      {post : List (QueueKey × Queue)},
    scanAux L b rem = .found pre k hd tl fin post →
    (∀ e ∈ flattenBest b, e.2.items ≠ []) →
    ∀ e ∈ pre ++ (k, ⟨hd :: tl, fin⟩) :: post, e.2.items ≠ [] := by
  intro rem
  induction rem with
  | nil =>
    intro b pre k hd tl fin post h hb
    cases b with
    | none => simp [scanAux] at h
    | some bb =>
      simp [scanAux] at h
      obtain ⟨rfl, rfl, rfl, rfl, rfl, rfl⟩ := h
      intro e he
      exact hb e (by simpa [flattenBest, Best.entry] using he)
  | cons e0 rest ih =>
    intro b pre k hd tl fin post h hb
    obtain ⟨k0, q0⟩ := e0
    obtain ⟨items0, fin0⟩ := q0
    cases items0 with
    | nil =>
      by_cases hf : fin0 = true
      · subst hf
        simp [scanAux] at h
        exact ih b h hb
      · simp [scanAux, hf] at h
    | cons hd0 tl0 =>
      simp only [scanAux] at h
      by_cases hc : oleb L (updBest b k0 hd0 tl0 fin0).head.time = true
      · rw [if_pos hc] at h
        refine ih (some (updBest b k0 hd0 tl0 fin0)) h ?_
        rw [flattenBest_updBest]
        intro e he
        rcases List.mem_append.mp he with h1 | h2
        · exact hb e h1
        · simp at h2
          subst h2
          simp
      · rw [if_neg hc] at h
        simp at h

theorem scanAux_found_subset {L : Option Int} :
    ∀ (rem : List (QueueKey × Queue)) (b : Option Best) {pre : List (QueueKey × Queue)}
      {k : QueueKey} {hd : Data} {tl : List Data} {fin : Bool}
      {post : List (QueueKey × Queue)},
    scanAux L b rem = .found pre k hd tl fin post →
    ∀ e ∈ pre ++ (k, ⟨hd :: tl, fin⟩) :: post, e ∈ flattenBest b ++ rem := by
  intro rem
  induction rem with
  | nil =>
    intro b pre k hd tl fin post h
    cases b with
    | none => simp [scanAux] at h
    | some bb =>
      simp [scanAux] at h
      obtain ⟨rfl, rfl, rfl, rfl, rfl, rfl⟩ := h
      intro e he
      simpa [flattenBest, Best.entry] using he
  | cons e0 rest ih =>
    intro b pre k hd tl fin post h
    obtain ⟨k0, q0⟩ := e0
    obtain ⟨items0, fin0⟩ := q0
    cases items0 with
    | nil =>
      by_cases hf : fin0 = true
      · subst hf
        simp [scanAux] at h
        intro e he
        rcases List.mem_append.mp (ih b h e he) with h1 | h2
        · exact List.mem_append.mpr (Or.inl h1)
        · exact List.mem_append.mpr (Or.inr (List.mem_cons_of_mem _ h2))
      · simp [scanAux, hf] at h
    | cons hd0 tl0 =>
      simp only [scanAux] at h
      by_cases hc : oleb L (updBest b k0 hd0 tl0 fin0).head.time = true
      · rw [if_pos hc] at h
        intro e he
        have hmem := ih (some (updBest b k0 hd0 tl0 fin0)) h e he
        rw [flattenBest_updBest] at hmem
        rcases List.mem_append.mp hmem with h1 | h2
        · rcases List.mem_append.mp h1 with h3 | h4
          · exact List.mem_append.mpr (Or.inl h3)
          · simp at h4
            subst h4
            exact List.mem_append.mpr (Or.inr (List.mem_cons_self _ _))
        · exact List.mem_append.mpr (Or.inr (List.mem_cons_of_mem _ h2))
      · rw [if_neg hc] at h
        simp at h

theorem scanAux_blocked_spec {L : Option Int} :
    ∀ (rem : List (QueueKey × Queue)) (b : Option Best) {qs : List (QueueKey × Queue)}
      {k : QueueKey},
    scanAux L b rem = .blocked qs k →
    flatKD qs = flatKD (flattenBest b ++ rem) ∧
      (∃ e ∈ qs, e.1 = k ∧ e.2.items = [] ∧ e.2.finished = false) ∧
      ∀ e ∈ qs, e ∈ flattenBest b ++ rem := by
  intro rem
  induction rem with
  | nil =>
    intro b qs k h
    cases b with
    | none => simp [scanAux] at h
    | some bb => simp [scanAux] at h
  | cons e0 rest ih =>
    intro b qs k h
    obtain ⟨k0, q0⟩ := e0
    obtain ⟨items0, fin0⟩ := q0
    cases items0 with
    | nil =>
      by_cases hf : fin0 = true
      · subst hf
        simp [scanAux] at h
        obtain ⟨h1, h2, h3⟩ := ih b h
        refine ⟨?_, h2, ?_⟩
        · rw [h1]
          simp [flatKD_append, flatKD]
        · intro e he
          rcases List.mem_append.mp (h3 e he) with ha | hb
          · exact List.mem_append.mpr (Or.inl ha)
          · exact List.mem_append.mpr (Or.inr (List.mem_cons_of_mem _ hb))
      · have hf0 : fin0 = false := by revert hf; cases fin0 <;> simp
        subst hf0
        simp [scanAux] at h
        obtain ⟨rfl, rfl⟩ := h
        refine ⟨rfl, ⟨(k0, ⟨[], false⟩), ?_, rfl, rfl, rfl⟩, fun e he => he⟩
        exact List.mem_append.mpr (Or.inr (List.mem_cons_self _ _))
    | cons hd0 tl0 =>
      simp only [scanAux] at h
      by_cases hc : oleb L (updBest b k0 hd0 tl0 fin0).head.time = true
      · rw [if_pos hc] at h
        obtain ⟨h1, h2, h3⟩ := ih (some (updBest b k0 hd0 tl0 fin0)) h
        rw [flattenBest_updBest] at h1 h3
        refine ⟨?_, h2, ?_⟩
        · rw [h1]
          simp [flatKD_append, flatKD]
        · intro e he
          rcases List.mem_append.mp (h3 e he) with ha | hb
          · rcases List.mem_append.mp ha with ha1 | ha2
            · exact List.mem_append.mpr (Or.inl ha1)
            · simp at ha2
              subst ha2
              exact List.mem_append.mpr (Or.inr (List.mem_cons_self _ _))
          · exact List.mem_append.mpr (Or.inr (List.mem_cons_of_mem _ hb))
      · rw [if_neg hc] at h
        simp at h

theorem scanAux_empty_spec {L : Option Int} :
    ∀ (rem : List (QueueKey × Queue)) (b : Option Best),
    scanAux L b rem = .empty → b = none ∧ flatKD rem = [] := by
  intro rem
  induction rem with
  | nil =>
    intro b h
    cases b with
    | none => exact ⟨rfl, rfl⟩
    | some bb => simp [scanAux] at h
  | cons e0 rest ih =>
    intro b h
    obtain ⟨k0, q0⟩ := e0
    obtain ⟨items0, fin0⟩ := q0
    cases items0 with
    | nil =>
      by_cases hf : fin0 = true
      · subst hf
        simp [scanAux] at h
        obtain ⟨h1, h2⟩ := ih b h
        exact ⟨h1, by simp [flatKD, h2]⟩
      · simp [scanAux, hf] at h
    | cons hd0 tl0 =>
      simp only [scanAux] at h
      by_cases hc : oleb L (updBest b k0 hd0 tl0 fin0).head.time = true
      · rw [if_pos hc] at h
        exact absurd (ih (some (updBest b k0 hd0 tl0 fin0)) h).1 (by simp)
      · rw [if_neg hc] at h
        simp at h

theorem trajHeadMax_ok {traj : Int} :
    ∀ (qs : List (QueueKey × Queue)) (acc : Option Int),
    (∀ e ∈ qs, e.2.items ≠ []) → ∃ c, trajHeadMax traj acc qs = .ok c := by
  intro qs
  induction qs with
  | nil => intro acc _; exact ⟨acc, rfl⟩
  | cons e rest ih =>
    intro acc hne
    obtain ⟨k0, q0⟩ := e
    obtain ⟨items0, fin0⟩ := q0
    by_cases ht : k0.trajectoryId = traj
    · cases items0 with
      | nil =>
        exact absurd rfl (hne (k0, ⟨[], fin0⟩) (List.mem_cons_self _ _))
      | cons hd0 tl0 =>
        simp only [trajHeadMax, ht, if_pos]
        exact ih _ (fun e he => hne e (List.mem_cons_of_mem _ he))
    · simp only [trajHeadMax, ht, if_neg, if_false]
      exact ih acc (fun e he => hne e (List.mem_cons_of_mem _ he))

theorem getCST_ok {cache : List (Int × Option Int)} {traj : Int}
    {qs : List (QueueKey × Queue)} (hne : ∀ e ∈ qs, e.2.items ≠ []) :
    ∃ c cache2, GetCommonStartTime cache traj qs = .ok (c, cache2) := by
  unfold GetCommonStartTime
  cases hl : lookupC traj cache with
  | some t => exact ⟨t, cache, rfl⟩
  | none =>
    obtain ⟨c, hc⟩ := trajHeadMax_ok qs none hne
    rw [hc]
    exact ⟨c, (traj, c) :: cache, rfl⟩

theorem getCST_cache_mono {cache : List (Int × Option Int)} {traj : Int}
    {qs : List (QueueKey × Queue)} {c : Option Int} {cache2 : List (Int × Option Int)}
    (h : GetCommonStartTime cache traj qs = .ok (c, cache2))
    {t0 : Int} {v : Option Int} (hv : lookupC t0 cache = some v) :
    lookupC t0 cache2 = some v := by
  unfold GetCommonStartTime at h
  cases hl : lookupC traj cache with
  | some t =>
    rw [hl] at h
    simp at h
    obtain ⟨h1, h2⟩ := h
    rw [← h2]
    exact hv
  | none =>
    rw [hl] at h
    cases hm : trajHeadMax traj none qs with
    | error e => rw [hm] at h; simp at h
    | ok t =>
      rw [hm] at h
      simp at h
      obtain ⟨h1, h2⟩ := h
      rw [← h2]
      by_cases he : traj = t0
      · subst he
        rw [hv] at hl
        exact absurd hl (by simp)
      · simp only [lookupC, he, if_neg, if_false]
        exact hv

theorem getCST_lookup_self {cache : List (Int × Option Int)} {traj : Int}
    {qs : List (QueueKey × Queue)} {cst : Option Int} {cache2 : List (Int × Option Int)}
    (h : GetCommonStartTime cache traj qs = .ok (cst, cache2)) :
    lookupC traj cache2 = some cst := by
  unfold GetCommonStartTime at h
  cases hl : lookupC traj cache with
  | some t =>
    rw [hl] at h
    simp at h
    obtain ⟨h1, h2⟩ := h
    rw [← h2, ← h1]
    exact hl
  | none =>
    rw [hl] at h
    cases hm : trajHeadMax traj none qs with
    | error e => rw [hm] at h; simp at h
    | ok t =>
      rw [hm] at h
      simp at h
      obtain ⟨h1, h2⟩ := h
      rw [← h2, ← h1]
      simp [lookupC]

theorem dispatchF_halt_shape :
    ∀ (n : Nat) (s s1 : State), DispatchF n s = .ok s1 →
    s1.queues = [] ∨ ∃ e ∈ s1.queues, e.1 = s1.blocker ∧ e.2.finished = false ∧
      (e.2.items = [] ∨ ∃ d cst, e.2.items = [d] ∧
        lookupC e.1.trajectoryId s1.commonStartTimes = some cst ∧
        oleb cst d.time = false) := by
  intro n
  induction n with
  | zero => intro s s1 h; simp [DispatchF] at h
  | succ n ih =>
    intro s s1 h
    simp only [DispatchF] at h
    cases hscan : scanAux s.lastDispatchedTime none s.queues with
    | fatal k0 => rw [hscan] at h; simp at h
    | blocked qs k0 =>
      rw [hscan] at h
      simp at h
      obtain ⟨e, he, hk, hi, hf⟩ := (scanAux_blocked_spec _ none hscan).2.1
      subst h
      right
      exact ⟨e, by simpa [CannotMakeProgress] using he,
        by simp [CannotMakeProgress, hk], by simp [hf], Or.inl hi⟩
    | empty =>
      rw [hscan] at h
      simp at h
      subst h
      left
      rfl
    | found pre k0 hd tl fin post =>
      rw [hscan] at h
      dsimp only at h
      cases hg : GetCommonStartTime s.commonStartTimes k0.trajectoryId
          (pre ++ (k0, ⟨hd :: tl, fin⟩) :: post) with
      | error e => rw [hg] at h; simp at h
      | ok p =>
        obtain ⟨cst, cache⟩ := p
        rw [hg] at h
        simp only [] at h
        by_cases h1 : oleb cst hd.time = true
        · rw [if_pos h1] at h
          exact ih _ _ h
        · rw [if_neg h1] at h
          by_cases h2 : tl.isEmpty = true
          · rw [if_pos h2] at h
            by_cases h3 : fin = true
            · rw [if_pos h3] at h
              exact ih _ _ h
            · rw [if_neg h3] at h
              simp at h
              subst h
              right
              have hfin : fin = false := by revert h3; cases fin <;> simp
              have htl : tl = [] := by revert h2; cases tl <;> simp
              refine ⟨(k0, ⟨hd :: tl, fin⟩), ?_, ?_, ?_, ?_⟩
              · simp [CannotMakeProgress]
              · simp [CannotMakeProgress]
              · simp [hfin]
              · refine Or.inr ⟨hd, cst, by simp [htl], getCST_lookup_self hg, ?_⟩
                revert h1
                cases oleb cst hd.time <;> simp
          · rw [if_neg h2] at h
            cases tl with
            | nil => simp at h2
            | cons d1 tl2 =>
              simp only [List.head?] at h
              by_cases h4 : oltb cst d1.time = true
              · rw [if_pos h4] at h
                exact ih _ _ h
              · rw [if_neg h4] at h
                exact ih _ _ h

theorem tracks_of_subset {A B : List (QueueKey × Queue)} (h : ∀ e ∈ A, e ∈ B) :
    tracks A B := by
  intro e he
  exact ⟨e.2, h e he, rfl⟩

theorem tracks_trans {A B C : List (QueueKey × Queue)} (h1 : tracks A B)
    (h2 : tracks B C) : tracks A C := by
  intro e he
  obtain ⟨q, hq, hf⟩ := h1 e he
  obtain ⟨q2, hq2, hf2⟩ := h2 (e.1, q) hq
  exact ⟨q2, hq2, by rw [hf2]; exact hf⟩

theorem tracks_pop (pre post : List (QueueKey × Queue)) (k : QueueKey) (hd : Data)
    (tl : List Data) (fin : Bool) :
    tracks (pre ++ (k, ⟨tl, fin⟩) :: post) (pre ++ (k, ⟨hd :: tl, fin⟩) :: post) := by
  intro e he
  rcases List.mem_append.mp he with h1 | h2
  · exact ⟨e.2, List.mem_append.mpr (Or.inl h1), rfl⟩
  · rcases List.mem_cons.mp h2 with h3 | h4
    · subst h3
      exact ⟨⟨hd :: tl, fin⟩, List.mem_append.mpr (Or.inr (List.mem_cons_self _ _)), rfl⟩
    · exact ⟨e.2, List.mem_append.mpr (Or.inr (List.mem_cons_of_mem _ h4)), rfl⟩

theorem flatKD_pop_ms (pre post : List (QueueKey × Queue)) (k : QueueKey) (hd : Data)
    (tl : List Data) (fin : Bool) :
    (↑(flatKD (pre ++ (k, ⟨hd :: tl, fin⟩) :: post)) : Multiset (QueueKey × Data)) =
      (k, hd) ::ₘ ↑(flatKD (pre ++ (k, ⟨tl, fin⟩) :: post)) := by
  simp only [flatKD_append, flatKD, List.map_cons, List.cons_append]
  rw [Multiset.cons_coe]
  exact Multiset.coe_eq_coe.mpr List.perm_middle

theorem logTimes_emit (s : State) (cache : List (Int × Option Int))
    (pre : List (QueueKey × Queue)) (k : QueueKey) (hd : Data) (tl : List Data)
    (fin : Bool) (post : List (QueueKey × Queue)) (cst : Option Int) (c : DispatchCase) :
    logTimes (emit s cache pre k hd tl fin post cst c) = logTimes s ++ [hd.time] := by
  simp [logTimes, emit]

theorem logInv_emit {s : State} (hli : logInv s) {hd : Data}
    (hle : oleb s.lastDispatchedTime hd.time = true) (cache : List (Int × Option Int))
    (pre : List (QueueKey × Queue)) (k : QueueKey) (tl : List Data) (fin : Bool)
    (post : List (QueueKey × Queue)) (cst : Option Int) (c : DispatchCase) :
    logInv (emit s cache pre k hd tl fin post cst c) := by
  obtain ⟨hs, hb⟩ := hli
  constructor
  · rw [logTimes_emit, List.Sorted, List.pairwise_append]
    refine ⟨hs, List.pairwise_singleton _ _, ?_⟩
    intro x hx y hy
    simp at hy
    subst hy
    exact tleb_oleb_le (hb x hx) hle
  · intro t ht
    rw [logTimes_emit] at ht
    have hL : (emit s cache pre k hd tl fin post cst c).lastDispatchedTime = some hd.time := rfl
    rw [hL]
    rcases List.mem_append.mp ht with h1 | h2
    · have := tleb_oleb_le (hb t h1) hle
      simp [tleb]
      omega
    · simp at h2
      subst h2
      simp [tleb]

theorem scan_checked_none {s : State} {pre : List (QueueKey × Queue)} {k : QueueKey}
    {hd : Data} {tl : List Data} {fin : Bool} {post : List (QueueKey × Queue)}
    (hscan : scanAux s.lastDispatchedTime none s.queues = .found pre k hd tl fin post) :
    oleb s.lastDispatchedTime hd.time = true :=
  scanAux_found_checked s.queues none hscan (fun bb hbb => by simp at hbb)

theorem scan_flat_none {s : State} {pre : List (QueueKey × Queue)} {k : QueueKey}
    {hd : Data} {tl : List Data} {fin : Bool} {post : List (QueueKey × Queue)}
    (hscan : scanAux s.lastDispatchedTime none s.queues = .found pre k hd tl fin post) :
    flatKD (pre ++ (k, ⟨hd :: tl, fin⟩) :: post) = flatKD s.queues := by
  have := scanAux_found_flat s.queues none hscan
  simpa [flattenBest] using this

theorem scan_subset_none {s : State} {pre : List (QueueKey × Queue)} {k : QueueKey}
    {hd : Data} {tl : List Data} {fin : Bool} {post : List (QueueKey × Queue)}
    (hscan : scanAux s.lastDispatchedTime none s.queues = .found pre k hd tl fin post) :
    ∀ e ∈ pre ++ (k, ⟨hd :: tl, fin⟩) :: post, e ∈ s.queues := by
  intro e he
  have := scanAux_found_subset s.queues none hscan e he
  simpa [flattenBest] using this

theorem scan_nonempty_none {s : State} {pre : List (QueueKey × Queue)} {k : QueueKey}
    {hd : Data} {tl : List Data} {fin : Bool} {post : List (QueueKey × Queue)}
    (hscan : scanAux s.lastDispatchedTime none s.queues = .found pre k hd tl fin post) :
    ∀ e ∈ pre ++ (k, ⟨hd :: tl, fin⟩) :: post, e.2.items ≠ [] := by
  refine scanAux_found_nonempty s.queues none hscan ?_
  simp [flattenBest]

theorem dispatchF_L_mono :
    ∀ (n : Nat) (s s1 : State), DispatchF n s = .ok s1 →
    olebO s.lastDispatchedTime s1.lastDispatchedTime = true := by
  intro n
  induction n with
  | zero => intro s s1 h; simp [DispatchF] at h
  | succ n ih =>
    intro s s1 h
    simp only [DispatchF] at h
    cases hscan : scanAux s.lastDispatchedTime none s.queues with
    | fatal k0 => rw [hscan] at h; simp at h
    | blocked qs k0 =>
      rw [hscan] at h
      simp at h
      subst h
      exact olebO_refl _
    | empty =>
      rw [hscan] at h
      simp at h
      subst h
      exact olebO_refl _
    | found pre k0 hd tl fin post =>
      rw [hscan] at h
      dsimp only at h
      cases hg : GetCommonStartTime s.commonStartTimes k0.trajectoryId
          (pre ++ (k0, ⟨hd :: tl, fin⟩) :: post) with
      | error e => rw [hg] at h; simp at h
      | ok p =>
        obtain ⟨cst, cache⟩ := p
        rw [hg] at h
        dsimp only at h
        have hch : oleb s.lastDispatchedTime hd.time = true := scan_checked_none hscan
        by_cases h1 : oleb cst hd.time = true
        · rw [if_pos h1] at h
          exact olebO_trans (olebO_some_of_oleb hch) (ih _ _ h)
        · rw [if_neg h1] at h
          by_cases h2 : tl.isEmpty = true
          · rw [if_pos h2] at h
            by_cases h3 : fin = true
            · rw [if_pos h3] at h
              exact olebO_trans (olebO_some_of_oleb hch) (ih _ _ h)
            · rw [if_neg h3] at h
              simp at h
              subst h
              exact olebO_refl _
          · rw [if_neg h2] at h
            cases tl with
            | nil => simp at h2
            | cons d1 tl2 =>
              simp only [List.head?] at h
              by_cases h4 : oltb cst d1.time = true
              · rw [if_pos h4] at h
                exact olebO_trans (olebO_some_of_oleb hch) (ih _ _ h)
              · rw [if_neg h4] at h
                exact ih (dropFront s cache pre k0 hd (d1 :: tl2) fin post) s1 h

theorem dispatchF_logInv :
    ∀ (n : Nat) (s s1 : State), DispatchF n s = .ok s1 → logInv s → logInv s1 := by
  intro n
  induction n with
  | zero => intro s s1 h; simp [DispatchF] at h
  | succ n ih =>
    intro s s1 h hli
    simp only [DispatchF] at h
    cases hscan : scanAux s.lastDispatchedTime none s.queues with
    | fatal k0 => rw [hscan] at h; simp at h
    | blocked qs k0 =>
      rw [hscan] at h
      simp at h
      subst h
      exact hli
    | empty =>
      rw [hscan] at h
      simp at h
      subst h
      exact hli
    | found pre k0 hd tl fin post =>
      rw [hscan] at h
      dsimp only at h
      cases hg : GetCommonStartTime s.commonStartTimes k0.trajectoryId
          (pre ++ (k0, ⟨hd :: tl, fin⟩) :: post) with
      | error e => rw [hg] at h; simp at h
      | ok p =>
        obtain ⟨cst, cache⟩ := p
        rw [hg] at h
        dsimp only at h
        have hch : oleb s.lastDispatchedTime hd.time = true := scan_checked_none hscan
        by_cases h1 : oleb cst hd.time = true
        · rw [if_pos h1] at h
          exact ih _ _ h (logInv_emit hli hch _ _ _ _ _ _ _ _)
        · rw [if_neg h1] at h
          by_cases h2 : tl.isEmpty = true
          · rw [if_pos h2] at h
            by_cases h3 : fin = true
            · rw [if_pos h3] at h
              exact ih _ _ h (logInv_emit hli hch _ _ _ _ _ _ _ _)
            · rw [if_neg h3] at h
              simp at h
              subst h
              exact hli
          · rw [if_neg h2] at h
            cases tl with
            | nil => simp at h2
            | cons d1 tl2 =>
              simp only [List.head?] at h
              by_cases h4 : oltb cst d1.time = true
              · rw [if_pos h4] at h
                exact ih _ _ h (logInv_emit hli hch _ _ _ _ _ _ _ _)
              · rw [if_neg h4] at h
                exact ih _ _ h hli

theorem dispatchF_cache_mono :
    ∀ (n : Nat) (s s1 : State), DispatchF n s = .ok s1 →
    ∀ (traj : Int) (v : Option Int), lookupC traj s.commonStartTimes = some v →
    lookupC traj s1.commonStartTimes = some v := by
  intro n
  induction n with
  | zero => intro s s1 h; simp [DispatchF] at h
  | succ n ih =>
    intro s s1 h traj v hv
    simp only [DispatchF] at h
    cases hscan : scanAux s.lastDispatchedTime none s.queues with
    | fatal k0 => rw [hscan] at h; simp at h
    | blocked qs k0 =>
      rw [hscan] at h
      simp at h
      subst h
      exact hv
    | empty =>
      rw [hscan] at h
      simp at h
      subst h
      exact hv
    | found pre k0 hd tl fin post =>
      rw [hscan] at h
      dsimp only at h
      cases hg : GetCommonStartTime s.commonStartTimes k0.trajectoryId
          (pre ++ (k0, ⟨hd :: tl, fin⟩) :: post) with
      | error e => rw [hg] at h; simp at h
      | ok p =>
        obtain ⟨cst, cache⟩ := p
        rw [hg] at h
        dsimp only at h
        have hv2 : lookupC traj cache = some v := getCST_cache_mono hg hv
        by_cases h1 : oleb cst hd.time = true
        · rw [if_pos h1] at h
          exact ih _ _ h traj v hv2
        · rw [if_neg h1] at h
          by_cases h2 : tl.isEmpty = true
          · rw [if_pos h2] at h
            by_cases h3 : fin = true
            · rw [if_pos h3] at h
              exact ih _ _ h traj v hv2
            · rw [if_neg h3] at h
              simp at h
              subst h
              exact hv2
          · rw [if_neg h2] at h
            cases tl with
            | nil => simp at h2
            | cons d1 tl2 =>
              simp only [List.head?] at h
              by_cases h4 : oltb cst d1.time = true
              · rw [if_pos h4] at h
                exact ih _ _ h traj v hv2
              · rw [if_neg h4] at h
                exact ih _ _ h traj v hv2

theorem consInv_emit {s : State} (hcons : consInv s) {pre post : List (QueueKey × Queue)}
    {k : QueueKey} {hd : Data} {tl : List Data} {fin : Bool}
    (hflat : flatKD (pre ++ (k, ⟨hd :: tl, fin⟩) :: post) = flatKD s.queues)
    (cache : List (Int × Option Int)) (cst : Option Int) (c : DispatchCase) :
    consInv (emit s cache pre k hd tl fin post cst c) := by
  unfold consInv at hcons ⊢
  simp only [dispKD] at hcons
  simp only [emit, dispKD, List.map_append, List.map_cons, List.map_nil]
  rw [← Multiset.coe_add, hcons, ← hflat, flatKD_pop_ms, ← Multiset.singleton_add,
    Multiset.coe_singleton]
  abel

theorem consInv_drop {s : State} (hcons : consInv s) {pre post : List (QueueKey × Queue)}
    {k : QueueKey} {hd : Data} {tl : List Data} {fin : Bool}
    (hflat : flatKD (pre ++ (k, ⟨hd :: tl, fin⟩) :: post) = flatKD s.queues)
    (cache : List (Int × Option Int)) :
    consInv (dropFront s cache pre k hd tl fin post) := by
  unfold consInv at hcons ⊢
  simp only [dispKD] at hcons
  simp only [dropFront, dispKD]
  rw [← Multiset.coe_add, hcons, ← hflat, flatKD_pop_ms, ← Multiset.singleton_add,
    Multiset.coe_singleton]
  abel

theorem dispatchF_consInv :
    ∀ (n : Nat) (s s1 : State), DispatchF n s = .ok s1 → consInv s → consInv s1 := by
  intro n
  induction n with
  | zero => intro s s1 h; simp [DispatchF] at h
  | succ n ih =>
    intro s s1 h hcons
    simp only [DispatchF] at h
    cases hscan : scanAux s.lastDispatchedTime none s.queues with
    | fatal k0 => rw [hscan] at h; simp at h
    | blocked qs k0 =>
      rw [hscan] at h
      simp at h
      subst h
      have hq := (scanAux_blocked_spec s.queues none hscan).1
      simp only [flattenBest, List.nil_append] at hq
      unfold consInv at hcons ⊢
      dsimp only [CannotMakeProgress, dispKD] at hcons ⊢
      rw [hq]
      exact hcons
    | empty =>
      rw [hscan] at h
      simp at h
      subst h
      have hq := (scanAux_empty_spec s.queues none hscan).2
      unfold consInv at hcons ⊢
      dsimp only [dispKD] at hcons ⊢
      rw [hq] at hcons
      exact hcons
    | found pre k0 hd tl fin post =>
      rw [hscan] at h
      dsimp only at h
      cases hg : GetCommonStartTime s.commonStartTimes k0.trajectoryId
          (pre ++ (k0, ⟨hd :: tl, fin⟩) :: post) with
      | error e => rw [hg] at h; simp at h
      | ok p =>
        obtain ⟨cst, cache⟩ := p
        rw [hg] at h
        dsimp only at h
        have hflat := scan_flat_none hscan
        by_cases h1 : oleb cst hd.time = true
        · rw [if_pos h1] at h
          exact ih _ _ h (consInv_emit hcons hflat cache cst .warm)
        · rw [if_neg h1] at h
          by_cases h2 : tl.isEmpty = true
          · rw [if_pos h2] at h
            by_cases h3 : fin = true
            · rw [if_pos h3] at h
              exact ih _ _ h (consInv_emit hcons hflat cache cst .thinFinished)
            · rw [if_neg h3] at h
              simp at h
              subst h
              unfold consInv at hcons ⊢
              dsimp only [CannotMakeProgress, dispKD] at hcons ⊢
              rw [hflat]
              exact hcons
          · rw [if_neg h2] at h
            cases tl with
            | nil => simp at h2
            | cons d1 tl2 =>
              simp only [List.head?] at h
              by_cases h4 : oltb cst d1.time = true
              · rw [if_pos h4] at h
                exact ih _ _ h (consInv_emit hcons hflat cache cst .straddle)
              · rw [if_neg h4] at h
                exact ih _ _ h (consInv_drop hcons hflat cache)

theorem dispatchF_tracks :
    ∀ (n : Nat) (s s1 : State), DispatchF n s = .ok s1 → tracks s1.queues s.queues := by
  intro n
  induction n with
  | zero => intro s s1 h; simp [DispatchF] at h
  | succ n ih =>
    intro s s1 h
    simp only [DispatchF] at h
    cases hscan : scanAux s.lastDispatchedTime none s.queues with
    | fatal k0 => rw [hscan] at h; simp at h
    | blocked qs k0 =>
      rw [hscan] at h
      simp at h
      subst h
      have hsub := (scanAux_blocked_spec s.queues none hscan).2.2
      simp only [flattenBest, List.nil_append] at hsub
      exact tracks_of_subset hsub
    | empty =>
      rw [hscan] at h
      simp at h
      subst h
      intro e he
      simp at he
    | found pre k0 hd tl fin post =>
      rw [hscan] at h
      dsimp only at h
      cases hg : GetCommonStartTime s.commonStartTimes k0.trajectoryId
          (pre ++ (k0, ⟨hd :: tl, fin⟩) :: post) with
      | error e => rw [hg] at h; simp at h
      | ok p =>
        obtain ⟨cst, cache⟩ := p
        rw [hg] at h
        dsimp only at h
        have hsub : tracks (pre ++ (k0, ⟨hd :: tl, fin⟩) :: post) s.queues :=
          tracks_of_subset (scan_subset_none hscan)
        by_cases h1 : oleb cst hd.time = true
        · rw [if_pos h1] at h
          exact tracks_trans (ih _ _ h) (tracks_trans (tracks_pop _ _ _ hd _ _) hsub)
        · rw [if_neg h1] at h
          by_cases h2 : tl.isEmpty = true
          · rw [if_pos h2] at h
            by_cases h3 : fin = true
            · rw [if_pos h3] at h
              exact tracks_trans (ih _ _ h) (tracks_trans (tracks_pop _ _ _ hd _ _) hsub)
            · rw [if_neg h3] at h
              simp at h
              subst h
              exact hsub
          · rw [if_neg h2] at h
            cases tl with
            | nil => simp at h2
            | cons d1 tl2 =>
              simp only [List.head?] at h
              by_cases h4 : oltb cst d1.time = true
              · rw [if_pos h4] at h
                exact tracks_trans (ih _ _ h) (tracks_trans (tracks_pop _ _ _ hd _ _) hsub)
              · rw [if_neg h4] at h
                exact tracks_trans (ih (dropFront s cache pre k0 hd (d1 :: tl2) fin post) s1 h)
                  (tracks_trans (tracks_pop _ _ _ hd _ _) hsub)

theorem recInv_emit {s : State} (hrec : recInv s) (cache : List (Int × Option Int))
    (pre : List (QueueKey × Queue)) (k : QueueKey) {hd : Data} {tl : List Data}
    (fin : Bool) (post : List (QueueKey × Queue)) {cst : Option Int} {c : DispatchCase}
    (hnew : recPhi ⟨k, hd, cst, (tl.head?).map Data.time, c⟩) :
    recInv (emit s cache pre k hd tl fin post cst c) := by
  intro r hr
  simp only [emit] at hr
  rcases List.mem_append.mp hr with h1 | h2
  · exact hrec r h1
  · simp at h2
    subst h2
    exact hnew

theorem dispatchF_recInv :
    ∀ (n : Nat) (s s1 : State), DispatchF n s = .ok s1 → recInv s → recInv s1 := by
  intro n
  induction n with
  | zero => intro s s1 h; simp [DispatchF] at h
  | succ n ih =>
    intro s s1 h hrec
    simp only [DispatchF] at h
    cases hscan : scanAux s.lastDispatchedTime none s.queues with
    | fatal k0 => rw [hscan] at h; simp at h
    | blocked qs k0 =>
      rw [hscan] at h
      simp at h
      subst h
      exact hrec
    | empty =>
      rw [hscan] at h
      simp at h
      subst h
      exact hrec
    | found pre k0 hd tl fin post =>
      rw [hscan] at h
      dsimp only at h
      cases hg : GetCommonStartTime s.commonStartTimes k0.trajectoryId
          (pre ++ (k0, ⟨hd :: tl, fin⟩) :: post) with
      | error e => rw [hg] at h; simp at h
      | ok p =>
        obtain ⟨cst, cache⟩ := p
        rw [hg] at h
        dsimp only at h
        by_cases h1 : oleb cst hd.time = true
        · rw [if_pos h1] at h
          exact ih _ _ h (recInv_emit hrec cache pre k0 fin post (Or.inl h1))
        · rw [if_neg h1] at h
          by_cases h2 : tl.isEmpty = true
          · rw [if_pos h2] at h
            by_cases h3 : fin = true
            · rw [if_pos h3] at h
              exact ih _ _ h (recInv_emit hrec cache pre k0 fin post (Or.inr (Or.inl rfl)))
            · rw [if_neg h3] at h
              simp at h
              subst h
              exact hrec
          · rw [if_neg h2] at h
            cases tl with
            | nil => simp at h2
            | cons d1 tl2 =>
              simp only [List.head?] at h
              by_cases h4 : oltb cst d1.time = true
              · rw [if_pos h4] at h
                exact ih _ _ h (recInv_emit hrec cache pre k0 fin post
                  (Or.inr (Or.inr ⟨rfl, d1.time, rfl, h4⟩)))
              · rw [if_neg h4] at h
                refine ih (dropFront s cache pre k0 hd (d1 :: tl2) fin post) s1 h ?_
                exact hrec

theorem dispatchF_ne_nullDeref :
    ∀ (n : Nat) (s : State), DispatchF n s ≠ .error Fatal.nullDeref := by
  intro n
  induction n with
  | zero => intro s h; simp [DispatchF] at h
  | succ n ih =>
    intro s h
    simp only [DispatchF] at h
    cases hscan : scanAux s.lastDispatchedTime none s.queues with
    | fatal k0 => rw [hscan] at h; simp at h
    | blocked qs k0 =>
      rw [hscan] at h
      simp at h
    | empty =>
      rw [hscan] at h
      simp at h
    | found pre k0 hd tl fin post =>
      rw [hscan] at h
      dsimp only at h
      cases hg : GetCommonStartTime s.commonStartTimes k0.trajectoryId
          (pre ++ (k0, ⟨hd :: tl, fin⟩) :: post) with
      | error e =>
        obtain ⟨c, cc, heq⟩ := getCST_ok (scan_nonempty_none hscan)
        rw [heq] at hg
        simp at hg
      | ok p =>
        obtain ⟨cst, cache⟩ := p
        rw [hg] at h
        dsimp only at h
        by_cases h1 : oleb cst hd.time = true
        · rw [if_pos h1] at h
          exact ih _ h
        · rw [if_neg h1] at h
          by_cases h2 : tl.isEmpty = true
          · rw [if_pos h2] at h
            by_cases h3 : fin = true
            · rw [if_pos h3] at h
              exact ih _ h
            · rw [if_neg h3] at h
              simp at h
          · rw [if_neg h2] at h
            cases tl with
            | nil => simp at h2
            | cons d1 tl2 =>
              simp only [List.head?] at h
              by_cases h4 : oltb cst d1.time = true
              · rw [if_pos h4] at h
                exact ih _ h
              · rw [if_neg h4] at h
                exact ih _ h

theorem flatLen_pop (pre post : List (QueueKey × Queue)) (k : QueueKey) (hd : Data)
    (tl : List Data) (fin : Bool) :
    flatLen (pre ++ (k, ⟨tl, fin⟩) :: post) + 1 = flatLen (pre ++ (k, ⟨hd :: tl, fin⟩) :: post) := by
  simp [flatLen, flatKD_append, flatKD]
  omega

theorem dispatchF_fuel :
    ∀ (n : Nat) (s : State), flatLen s.queues < n → DispatchF n s ≠ .error Fatal.outOfFuel := by
  intro n
  induction n with
  | zero => intro s hlt; omega
  | succ n ih =>
    intro s hlt h
    simp only [DispatchF] at h
    cases hscan : scanAux s.lastDispatchedTime none s.queues with
    | fatal k0 => rw [hscan] at h; simp at h
    | blocked qs k0 =>
      rw [hscan] at h
      simp at h
    | empty =>
      rw [hscan] at h
      simp at h
    | found pre k0 hd tl fin post =>
      rw [hscan] at h
      dsimp only at h
      have hlen : flatLen (pre ++ (k0, ⟨hd :: tl, fin⟩) :: post) = flatLen s.queues := by
        unfold flatLen
        rw [scan_flat_none hscan]
      have hlt2 : flatLen (pre ++ (k0, ⟨tl, fin⟩) :: post) < n := by
        have := flatLen_pop pre post k0 hd tl fin
        omega
      cases hg : GetCommonStartTime s.commonStartTimes k0.trajectoryId
          (pre ++ (k0, ⟨hd :: tl, fin⟩) :: post) with
      | error e =>
        obtain ⟨c, cc, heq⟩ := getCST_ok (scan_nonempty_none hscan)
        rw [heq] at hg
        simp at hg
      | ok p =>
        obtain ⟨cst, cache⟩ := p
        rw [hg] at h
        dsimp only at h
        by_cases h1 : oleb cst hd.time = true
        · rw [if_pos h1] at h
          exact ih _ hlt2 h
        · rw [if_neg h1] at h
          by_cases h2 : tl.isEmpty = true
          · rw [if_pos h2] at h
            by_cases h3 : fin = true
            · rw [if_pos h3] at h
              exact ih _ hlt2 h
            · rw [if_neg h3] at h
              simp at h
          · rw [if_neg h2] at h
            cases tl with
            | nil => simp at h2
            | cons d1 tl2 =>
              simp only [List.head?] at h
              by_cases h4 : oltb cst d1.time = true
              · rw [if_pos h4] at h
                exact ih _ hlt2 h
              · rw [if_neg h4] at h
                exact ih _ hlt2 h

theorem flatKD_insertSorted (k : QueueKey) :
    ∀ qs : List (QueueKey × Queue), flatKD (insertSorted k qs) = flatKD qs := by
  intro qs
  induction qs with
  | nil => simp [insertSorted, flatKD]
  | cons e rest ih =>
    by_cases hlt : keyLtb k e.1 = true
    · simp [insertSorted, hlt, flatKD]
    · simp [insertSorted, hlt, flatKD, ih]

theorem mem_insertSorted_self (k : QueueKey) :
    ∀ qs : List (QueueKey × Queue), (k, (⟨[], false⟩ : Queue)) ∈ insertSorted k qs := by
  intro qs
  induction qs with
  | nil => simp [insertSorted]
  | cons e rest ih =>
    by_cases hlt : keyLtb k e.1 = true
    · simp [insertSorted, hlt]
    · simp only [insertSorted, hlt, if_false]
      exact List.mem_cons_of_mem _ ih

theorem flatKD_setFinished (k : QueueKey) :
    ∀ qs : List (QueueKey × Queue), flatKD (setFinished k qs) = flatKD qs := by
  intro qs
  induction qs with
  | nil => simp [setFinished, flatKD]
  | cons e rest ih =>
    by_cases hk : e.1 = k
    · simp only [setFinished, List.map_cons, if_pos hk, flatKD]
      simp only [setFinished] at ih
      rw [ih]
    · simp only [setFinished, List.map_cons, if_neg hk, flatKD]
      simp only [setFinished] at ih
      rw [ih]

theorem setFinished_unfin {k : QueueKey} {qs : List (QueueKey × Queue)}
    {e : QueueKey × Queue} (he : e ∈ setFinished k qs) (hf : e.2.finished = false) :
    e ∈ qs ∧ e.1 ≠ k := by
  induction qs with
  | nil => simp [setFinished] at he
  | cons e0 rest ih =>
    simp only [setFinished, List.map_cons] at he
    rcases List.mem_cons.mp he with h1 | h2
    · by_cases hk : e0.1 = k
      · rw [if_pos hk] at h1
        subst h1
        simp at hf
      · rw [if_neg hk] at h1
        subst h1
        exact ⟨List.mem_cons_self _ _, hk⟩
    · have := ih h2
      exact ⟨List.mem_cons_of_mem _ this.1, this.2⟩

theorem flatKD_push_ms {k : QueueKey} (d : Data) :
    ∀ (qs : List (QueueKey × Queue)) (q : Queue), findQueue k qs = some q →
    (↑(flatKD (pushItem k d qs)) : Multiset (QueueKey × Data)) = (k, d) ::ₘ ↑(flatKD qs) := by
  intro qs
  induction qs with
  | nil => intro q h; simp [findQueue] at h
  | cons e rest ih =>
    intro q h
    by_cases hk : e.1 = k
    · simp only [pushItem, if_pos hk, flatKD, List.map_append, List.map_cons, List.map_nil]
      subst hk
      have harr : List.map (fun d0 => (e.1, d0)) e.2.items ++ [(e.1, d)] ++ flatKD rest =
          List.map (fun d0 => (e.1, d0)) e.2.items ++ (e.1, d) :: flatKD rest := by
        simp
      rw [harr, Multiset.cons_coe]
      exact Multiset.coe_eq_coe.mpr List.perm_middle
    · simp only [findQueue, if_neg hk] at h
      simp only [pushItem, if_neg hk, flatKD]
      rw [← Multiset.coe_add, ← Multiset.coe_add, ih q h, Multiset.add_cons]

theorem dispatchF_Jinv {n : Nat} {s s1 : State} (h : DispatchF n s = .ok s1) : Jinv s1 := by
  rcases dispatchF_halt_shape n s s1 h with h1 | ⟨e, he, _, hf, _⟩
  · exact Or.inl h1
  · exact Or.inr ⟨e, he, hf⟩

theorem dispatchF_Inv {n : Nat} {s s1 : State} (h : DispatchF n s = .ok s1)
    (hlog : logInv s) (hcons : consInv s) (hrec : recInv s) : Inv s1 :=
  ⟨dispatchF_logInv n s s1 h hlog, dispatchF_consInv n s s1 h hcons,
    dispatchF_recInv n s s1 h hrec, dispatchF_Jinv h⟩

theorem initState_Inv : Inv initState := by
  refine ⟨⟨?_, ?_⟩, ?_, ?_, ?_⟩
  · simp [logTimes, initState]
  · intro t ht
    simp [logTimes, initState] at ht
  · simp [consInv, initState, dispKD, flatKD]
  · intro r hr
    simp [initState] at hr
  · exact Or.inl rfl

theorem addQueue_step {s s1 : State} {k : QueueKey} (h : AddQueue s k = .ok s1) :
    (Inv s → Inv s1) ∧ olebO s.lastDispatchedTime s1.lastDispatchedTime = true ∧
    (∀ traj v, lookupC traj s.commonStartTimes = some v →
      lookupC traj s1.commonStartTimes = some v) := by
  unfold AddQueue at h
  cases hf : findQueue k s.queues with
  | some q => rw [hf] at h; simp at h
  | none =>
    rw [hf] at h
    simp at h
    subst h
    refine ⟨?_, olebO_refl _, fun traj v hv => hv⟩
    intro ⟨hlog, hcons, hrec, _⟩
    refine ⟨hlog, ?_, hrec, ?_⟩
    · unfold consInv at hcons ⊢
      dsimp only [dispKD] at hcons ⊢
      rw [flatKD_insertSorted]
      exact hcons
    · exact Or.inr ⟨(k, ⟨[], false⟩), mem_insertSorted_self k s.queues, rfl⟩

theorem add_step {s s1 : State} {k : QueueKey} {d : Data} (h : Add s k d = .ok s1) :
    (Inv s → Inv s1) ∧ olebO s.lastDispatchedTime s1.lastDispatchedTime = true ∧
    (∀ traj v, lookupC traj s.commonStartTimes = some v →
      lookupC traj s1.commonStartTimes = some v) := by
  unfold Add at h
  cases hf : findQueue k s.queues with
  | none =>
    rw [hf] at h
    simp at h
    subst h
    exact ⟨id, olebO_refl _, fun traj v hv => hv⟩
  | some q =>
    rw [hf] at h
    dsimp only at h
    unfold Dispatch at h
    have hL := dispatchF_L_mono _ _ _ h
    have hC := fun traj v => dispatchF_cache_mono _ _ _ h traj v
    refine ⟨?_, hL, fun traj v hv => hC traj v hv⟩
    intro ⟨hlog, hcons, hrec, _⟩
    refine dispatchF_Inv h hlog ?_ hrec
    unfold consInv at hcons ⊢
    dsimp only [dispKD] at hcons ⊢
    rw [flatKD_push_ms d s.queues q hf, ← Multiset.coe_add, hcons, ← Multiset.singleton_add,
      Multiset.coe_singleton]
    abel

theorem mark_step {s s1 : State} {k : QueueKey} (h : MarkQueueAsFinished s k = .ok s1) :
    (Inv s → Inv s1) ∧ olebO s.lastDispatchedTime s1.lastDispatchedTime = true ∧
    (∀ traj v, lookupC traj s.commonStartTimes = some v →
      lookupC traj s1.commonStartTimes = some v) := by
  unfold MarkQueueAsFinished at h
  cases hf : findQueue k s.queues with
  | none => rw [hf] at h; simp at h
  | some q =>
    rw [hf] at h
    dsimp only at h
    by_cases hfin : q.finished = true
    · rw [if_pos hfin] at h
      simp at h
    · rw [if_neg hfin] at h
      unfold Dispatch at h
      have hL := dispatchF_L_mono _ _ _ h
      have hC := fun traj v => dispatchF_cache_mono _ _ _ h traj v
      refine ⟨?_, hL, fun traj v hv => hC traj v hv⟩
      intro ⟨hlog, hcons, hrec, _⟩
      refine dispatchF_Inv h hlog ?_ hrec
      unfold consInv at hcons ⊢
      dsimp only [dispKD] at hcons ⊢
      rw [flatKD_setFinished]
      exact hcons

theorem markAll_step :
    ∀ (keys : List QueueKey) (s s1 : State), markAll s keys = .ok s1 →
    (Inv s → Inv s1) ∧ olebO s.lastDispatchedTime s1.lastDispatchedTime = true ∧
    (∀ traj v, lookupC traj s.commonStartTimes = some v →
      lookupC traj s1.commonStartTimes = some v) := by
  intro keys
  induction keys with
  | nil =>
    intro s s1 h
    simp [markAll] at h
    subst h
    exact ⟨id, olebO_refl _, fun traj v hv => hv⟩
  | cons k rest ih =>
    intro s s1 h
    simp only [markAll] at h
    cases hm : MarkQueueAsFinished s k with
    | error e => rw [hm] at h; simp at h
    | ok smid =>
      rw [hm] at h
      obtain ⟨hi1, hl1, hc1⟩ := mark_step hm
      obtain ⟨hi2, hl2, hc2⟩ := ih smid s1 h
      exact ⟨fun hi => hi2 (hi1 hi), olebO_trans hl1 hl2,
        fun traj v hv => hc2 traj v (hc1 traj v hv)⟩

theorem runOp_step {s s1 : State} {op : Op} (h : runOp s op = .ok s1) :
    (Inv s → Inv s1) ∧ olebO s.lastDispatchedTime s1.lastDispatchedTime = true ∧
    (∀ traj v, lookupC traj s.commonStartTimes = some v →
      lookupC traj s1.commonStartTimes = some v) := by
  cases op with
  | addQueue k => exact addQueue_step h
  | add k d => exact add_step h
  | markQueueAsFinished k => exact mark_step h
  | flush => exact markAll_step _ s s1 h

theorem runOps_step :
    ∀ (ops : List Op) (s s1 : State), runOps s ops = .ok s1 →
    (Inv s → Inv s1) ∧ olebO s.lastDispatchedTime s1.lastDispatchedTime = true ∧
    (∀ traj v, lookupC traj s.commonStartTimes = some v →
      lookupC traj s1.commonStartTimes = some v) := by
  intro ops
  induction ops with
  | nil =>
    intro s s1 h
    simp [runOps] at h
    subst h
    exact ⟨id, olebO_refl _, fun traj v hv => hv⟩
  | cons op rest ih =>
    intro s s1 h
    simp only [runOps] at h
    cases hop : runOp s op with
    | error e => rw [hop] at h; simp at h
    | ok smid =>
      rw [hop] at h
      obtain ⟨hi1, hl1, hc1⟩ := runOp_step hop
      obtain ⟨hi2, hl2, hc2⟩ := ih smid s1 h
      exact ⟨fun hi => hi2 (hi1 hi), olebO_trans hl1 hl2,
        fun traj v hv => hc2 traj v (hc1 traj v hv)⟩

theorem runOps_append (l1 l2 : List Op) :
    ∀ s : State, runOps s (l1 ++ l2) =
      match runOps s l1 with
      | .ok t => runOps t l2
      | .error e => .error e := by
  induction l1 with
  | nil => intro s; simp [runOps]
  | cons op rest ih =>
    intro s
    simp only [List.cons_append, runOps]
    cases hop : runOp s op with
    | error e => rfl
    | ok smid => exact ih smid

theorem mark_ne_nullDeref (s : State) (k : QueueKey) :
    MarkQueueAsFinished s k ≠ .error Fatal.nullDeref := by
  intro h
  unfold MarkQueueAsFinished at h
  cases hf : findQueue k s.queues with
  | none => rw [hf] at h; simp at h
  | some q =>
    rw [hf] at h
    dsimp only at h
    by_cases hfin : q.finished = true
    · rw [if_pos hfin] at h
      simp at h
    · rw [if_neg hfin] at h
      unfold Dispatch at h
      exact dispatchF_ne_nullDeref _ _ h

theorem markAll_ne_nullDeref :
    ∀ (keys : List QueueKey) (s : State), markAll s keys ≠ .error Fatal.nullDeref := by
  intro keys
  induction keys with
  | nil => intro s h; simp [markAll] at h
  | cons k rest ih =>
    intro s h
    simp only [markAll] at h
    cases hm : MarkQueueAsFinished s k with
    | error e =>
      rw [hm] at h
      simp at h
      subst h
      exact mark_ne_nullDeref s k hm
    | ok smid =>
      rw [hm] at h
      exact ih smid h

theorem runOp_ne_nullDeref (s : State) (op : Op) : runOp s op ≠ .error Fatal.nullDeref := by
  intro h
  cases op with
  | addQueue k =>
    unfold runOp AddQueue at h
    dsimp only at h
    cases hf : findQueue k s.queues with
    | none => rw [hf] at h; simp at h
    | some q => rw [hf] at h; simp at h
  | add k d =>
    unfold runOp Add at h
    dsimp only at h
    cases hf : findQueue k s.queues with
    | none => rw [hf] at h; simp at h
    | some q =>
      rw [hf] at h
      dsimp only at h
      unfold Dispatch at h
      exact dispatchF_ne_nullDeref _ _ h
  | markQueueAsFinished k => exact mark_ne_nullDeref s k h
  | flush => exact markAll_ne_nullDeref _ s h

theorem runOps_ne_nullDeref :
    ∀ (ops : List Op) (s : State), runOps s ops ≠ .error Fatal.nullDeref := by
  intro ops
  induction ops with
  | nil => intro s h; simp [runOps] at h
  | cons op rest ih =>
    intro s h
    simp only [runOps] at h
    cases hop : runOp s op with
    | error e =>
      rw [hop] at h
      simp at h
      subst h
      exact runOp_ne_nullDeref s op hop
    | ok smid =>
      rw [hop] at h
      exact ih smid h

theorem mark_unfin_entries {s s1 : State} {k : QueueKey}
    (h : MarkQueueAsFinished s k = .ok s1) :
    ∀ e ∈ s1.queues, e.2.finished = false →
      (∃ q0, (e.1, q0) ∈ s.queues ∧ q0.finished = false) ∧ e.1 ≠ k := by
  unfold MarkQueueAsFinished at h
  cases hf : findQueue k s.queues with
  | none => rw [hf] at h; simp at h
  | some q =>
    rw [hf] at h
    dsimp only at h
    by_cases hfin : q.finished = true
    · rw [if_pos hfin] at h
      simp at h
    · rw [if_neg hfin] at h
      unfold Dispatch at h
      intro e he hef
      obtain ⟨q2, hq2, hqf⟩ := dispatchF_tracks _ _ _ h e he
      have hq2f : q2.finished = false := by rw [hqf, hef]
      have hmem := setFinished_unfin (e := (e.1, q2)) hq2 hq2f
      exact ⟨⟨q2, hmem.1, hq2f⟩, hmem.2⟩

theorem markAll_finishes :
    ∀ (keys : List QueueKey) (s s1 : State), markAll s keys = .ok s1 →
    (∀ e ∈ s.queues, e.2.finished = false → e.1 ∈ keys) →
    ∀ e ∈ s1.queues, e.2.finished = true := by
  intro keys
  induction keys with
  | nil =>
    intro s s1 h hcov e he
    simp [markAll] at h
    subst h
    by_contra hne
    have hfalse : e.2.finished = false := by revert hne; cases e.2.finished <;> simp
    exact absurd (hcov e he hfalse) (List.not_mem_nil _)
  | cons k rest ih =>
    intro s s1 h hcov
    simp only [markAll] at h
    cases hm : MarkQueueAsFinished s k with
    | error e => rw [hm] at h; simp at h
    | ok smid =>
      rw [hm] at h
      refine ih smid s1 h ?_
      intro e he hef
      obtain ⟨⟨q0, hq0, hq0f⟩, hne⟩ := mark_unfin_entries hm e he hef
      have hmem := hcov (e.1, q0) hq0 hq0f
      rcases List.mem_cons.mp hmem with h1 | h2
      · exact absurd h1 hne
      · exact h2

theorem updBest_check {L : Option Int} {b : Option Best} (k0 : QueueKey) (hd0 : Data)
    (tl0 : List Data) (fin0 : Bool)
    (hb : ∀ bb, b = some bb → oleb L bb.head.time = true) :
    oleb L (updBest b k0 hd0 tl0 fin0).head.time = oleb L hd0.time := by
  cases b with
  | none => rfl
  | some bb =>
    by_cases hlt : hd0.time < bb.head.time
    · simp [updBest, hlt]
    · simp only [updBest, if_neg hlt]
      have h1 := hb bb rfl
      rw [h1]
      symm
      cases L with
      | none => rfl
      | some a =>
        simp only [oleb] at h1 ⊢
        simp only [decide_eq_true_eq] at h1 ⊢
        omega

theorem scanAux_fatal_iff {L : Option Int} :
    ∀ (rem : List (QueueKey × Queue)) (b : Option Best),
    (∀ bb, b = some bb → oleb L bb.head.time = true) →
    ((scanAux L b rem).isFatal = true ↔
      ∃ e ∈ scanVisited L rem, ∃ dd, e.2.items.head? = some dd ∧ oleb L dd.time = false) := by
  intro rem
  induction rem with
  | nil =>
    intro b hb
    cases b with
    | none => simp [scanAux, scanVisited, ScanResult.isFatal]
    | some bb => simp [scanAux, scanVisited, ScanResult.isFatal]
  | cons e0 rest ih =>
    intro b hb
    obtain ⟨k0, q0⟩ := e0
    obtain ⟨items0, fin0⟩ := q0
    cases items0 with
    | nil =>
      by_cases hf : fin0 = true
      · subst hf
        simp only [scanAux, scanVisited, if_pos]
        exact ih b hb
      · simp only [scanAux, scanVisited, hf, if_false, Bool.false_eq_true]
        simp [ScanResult.isFatal]
    | cons hd0 tl0 =>
      have hchk := updBest_check (L := L) (b := b) k0 hd0 tl0 fin0 hb
      by_cases hc : oleb L hd0.time = true
      · have hc2 : oleb L (updBest b k0 hd0 tl0 fin0).head.time = true := by
          rw [hchk]; exact hc
        simp only [scanAux, scanVisited]
        rw [if_pos hc2, if_pos hc]
        rw [ih (some (updBest b k0 hd0 tl0 fin0)) (fun bb hbb => by cases hbb; exact hc2)]
        constructor
        · intro ⟨e, he, dd, hdd, hlt⟩
          exact ⟨e, List.mem_cons_of_mem _ he, dd, hdd, hlt⟩
        · intro ⟨e, he, dd, hdd, hlt⟩
          rcases List.mem_cons.mp he with h1 | h2
          · subst h1
            simp at hdd
            subst hdd
            rw [hc] at hlt
            exact absurd hlt (by simp)
          · exact ⟨e, h2, dd, hdd, hlt⟩
      · have hc2 : ¬ oleb L (updBest b k0 hd0 tl0 fin0).head.time = true := by
          rw [hchk]; exact hc
        simp only [scanAux, scanVisited]
        rw [if_neg hc2, if_neg hc]
        simp only [ScanResult.isFatal, true_iff]
        refine ⟨(k0, ⟨hd0 :: tl0, fin0⟩), List.mem_cons_self _ _, hd0, rfl, ?_⟩
        revert hc
        cases oleb L hd0.time <;> simp

theorem isNullDeref_eq_false {r : Except Fatal State}
    (h : r ≠ .error Fatal.nullDeref) : isNullDeref r = false := by
  cases r with
  | ok s => rfl
  | error e => cases e <;> first | rfl | exact absurd rfl h

/-- C1: for every sequence of operations (AddQueue, Add, MarkQueueAsFinished,
Flush) that completes without a fatal check, the sequence of timestamps of
the items passed to the sink callbacks is non-decreasing, and
`last_dispatched_time_` is monotonically non-decreasing over the merger's
lifetime: after any prefix of the run it is at most its final value. -/
theorem monotone_output (ops : List Op) (s : State) (h : runOps initState ops = .ok s) :
    List.Sorted (· ≤ ·) (logTimes s) ∧
    ∀ (ops1 ops2 : List Op) (s1 : State), ops = ops1 ++ ops2 →
      runOps initState ops1 = .ok s1 →
      olebO s1.lastDispatchedTime s.lastDispatchedTime = true := by
  obtain ⟨hi, _, _⟩ := runOps_step ops initState s h
  refine ⟨(hi initState_Inv).1.1, ?_⟩
  intro ops1 ops2 s1 hsplit h1
  subst hsplit
  rw [runOps_append] at h
  rw [h1] at h
  dsimp only at h
  exact (runOps_step ops2 s1 s h).2.1

/-- Witness for C1: scenario S1 run to completion, with the split after the
first four operations. -/
theorem monotone_output_witness :
    List.Sorted (· ≤ ·) (logTimes (stateOf (runOps initState s1ops))) ∧
    olebO (stateOf (runOps initState s1mid)).lastDispatchedTime
      (stateOf (runOps initState s1ops)).lastDispatchedTime = true :=
  ⟨(monotone_output s1ops (stateOf (runOps initState s1ops)) rfl).1,
   (monotone_output s1ops (stateOf (runOps initState s1ops)) rfl).2 s1mid s1rest
     (stateOf (runOps initState s1mid)) rfl rfl⟩

/-- C2: in scenario S2 the common start time of trajectory 0 resolves to 50,
the delivered items are exactly A at 3, B at 50, B at 60, A at 100 in that
order, and the items A at 1 and A at 2 are dropped without being
delivered. -/
theorem scenario_s2_cold_drop :
    runOps initState s2ops = .ok (stateOf (runOps initState s2ops)) ∧
    dispatchedKT (stateOf (runOps initState s2ops)) =
      [(kx, 3), (ky, 50), (ky, 60), (kx, 100)] ∧
    lookupC 0 (stateOf (runOps initState s2ops)).commonStartTimes = some (some 50) ∧
    (stateOf (runOps initState s2ops)).dropped = [(kx, ⟨1⟩), (kx, ⟨2⟩)] ∧
    (kx, (1 : Int)) ∉ dispatchedKT (stateOf (runOps initState s2ops)) ∧
    (kx, (2 : Int)) ∉ dispatchedKT (stateOf (runOps initState s2ops)) :=
  ⟨rfl, by decide, by decide, by decide, by decide, by decide⟩

/-- C3: after a run ending in Flush returns, every stream record has been
erased (the collection is empty) and the accepted items are exactly the
delivered items plus the cold-path drops, as multisets: every item not
dropped by the cold-path rule was delivered to its sink. -/
theorem flush_completeness (ops : List Op) (s : State)
    (h : runOps initState (ops ++ [Op.flush]) = .ok s) :
    s.queues = [] ∧ s.accepted.Perm (dispKD s ++ s.dropped) := by
  rw [runOps_append] at h
  cases h0 : runOps initState ops with
  | error e => rw [h0] at h; simp at h
  | ok s0 =>
    rw [h0] at h
    dsimp only at h
    simp only [runOps, runOp] at h
    cases hf : Flush s0 with
    | error e => rw [hf] at h; simp at h
    | ok s1 =>
      rw [hf] at h
      simp at h
      subst h
      have hInv0 := (runOps_step ops initState s0 h0).1 initState_Inv
      unfold Flush at hf
      have hall : ∀ e ∈ s1.queues, e.2.finished = true := by
        refine markAll_finishes _ s0 s1 hf ?_
        intro e he hef
        refine List.mem_map.mpr ⟨e, List.mem_filter.mpr ⟨he, by simp [hef]⟩, rfl⟩
      have hInv1 := (markAll_step _ s0 s1 hf).1 hInv0
      have hqe : s1.queues = [] := by
        rcases hInv1.2.2.2 with h1 | ⟨e, he, hef⟩
        · exact h1
        · rw [hall e he] at hef
          exact absurd hef (by simp)
      refine ⟨hqe, ?_⟩
      have hcons := hInv1.2.1
      unfold consInv at hcons
      rw [← Multiset.coe_eq_coe, ← Multiset.coe_add]
      calc (↑s1.accepted : Multiset (QueueKey × Data))
          = ↑(dispKD s1) + ↑s1.dropped + ↑(flatKD s1.queues) := hcons
        _ = ↑(dispKD s1) + ↑s1.dropped := by rw [hqe]; simp [flatKD]

/-- Witness for C3: one stream receiving one item, then Flush. -/
theorem flush_completeness_witness :
    (stateOf (runOps initState (c3wOps ++ [Op.flush]))).queues = [] ∧
    (stateOf (runOps initState (c3wOps ++ [Op.flush]))).accepted.Perm
      (dispKD (stateOf (runOps initState (c3wOps ++ [Op.flush]))) ++
        (stateOf (runOps initState (c3wOps ++ [Op.flush]))).dropped) :=
  flush_completeness c3wOps (stateOf (runOps initState (c3wOps ++ [Op.flush]))) rfl

/-- C4: the scan loop of Dispatch completes without the fatal CHECK_LE if and
only if every scanned stream head (not only the eventual candidate) has a
timestamp at or after `last_dispatched_time_`; equivalently, the check on
the running-minimum head time fires exactly when some scanned front item is
older than `last_dispatched_time_`. -/
theorem scan_check_iff (L : Option Int) (qs : List (QueueKey × Queue)) :
    ((scanAux L none qs).isFatal = false ↔
      ∀ e ∈ scanVisited L qs, ∀ dd, e.2.items.head? = some dd → oleb L dd.time = true) ∧
    ((scanAux L none qs).isFatal = true ↔
      ∃ e ∈ scanVisited L qs, ∃ dd, e.2.items.head? = some dd ∧ oleb L dd.time = false) := by
  have h := scanAux_fatal_iff (L := L) qs none (fun bb hbb => by simp at hbb)
  refine ⟨⟨?_, ?_⟩, h⟩
  · intro hnf e he dd hdd
    by_contra hne
    have hfl : oleb L dd.time = false := by
      revert hne; cases oleb L dd.time <;> simp
    have := h.mpr ⟨e, he, dd, hdd, hfl⟩
    rw [hnf] at this
    exact absurd this (by simp)
  · intro hall
    by_contra hne
    have ht : (scanAux L none qs).isFatal = true := by
      revert hne; cases (scanAux L none qs).isFatal <;> simp
    obtain ⟨e, he, dd, hdd, hlt⟩ := h.mp ht
    rw [hall e he dd hdd] at hlt
    exact absurd hlt (by simp)

/-- Counterexample to C5 as stated: in the scenario-S3 prefix, the item A at
time 5 is delivered although its timestamp is below the common start time 10
and it is not the designated straddling item of the cold-deep case (its
stream held fewer than two items, so it has no recorded successor): it was
delivered by the finished-thin-queue branch. -/
theorem common_start_claim_cex :
    ∃ r ∈ (stateOf (runOps initState c5ops)).dispatched,
      oleb r.commonStart r.data.time = false ∧ r.dcase ≠ DispatchCase.straddle ∧
      r.succ = none := by
  decide

/-- C5 (amended): for every item delivered on some trajectory, either its
timestamp is at or after the trajectory common start time, or it is the last
item of a finished stream with fewer than two items (cold-thin-finished
case), or it is the designated straddling item of the cold-deep case (its
stream held at least two items and the successor timestamp recorded at
dispatch is strictly beyond the common start time). -/
theorem common_start_deliveries (ops : List Op) (s : State)
    (h : runOps initState ops = .ok s) :
    ∀ r ∈ s.dispatched, oleb r.commonStart r.data.time = true ∨
      r.dcase = DispatchCase.thinFinished ∨
      (r.dcase = DispatchCase.straddle ∧
        ∃ ts, r.succ = some ts ∧ oltb r.commonStart ts = true) :=
  fun r hr => ((runOps_step ops initState s h).1 initState_Inv).2.2.1 r hr

/-- Witness for C5 (amended) at the delivered record A at 5 of the
scenario-S3 prefix. -/
theorem common_start_deliveries_witness :
    oleb (DispatchRecord.mk kx ⟨5⟩ (some 10) none DispatchCase.thinFinished).commonStart
      (DispatchRecord.mk kx ⟨5⟩ (some 10) none DispatchCase.thinFinished).data.time = true ∨
    (DispatchRecord.mk kx ⟨5⟩ (some 10) none DispatchCase.thinFinished).dcase =
      DispatchCase.thinFinished ∨
    ((DispatchRecord.mk kx ⟨5⟩ (some 10) none DispatchCase.thinFinished).dcase =
      DispatchCase.straddle ∧
      ∃ ts, (DispatchRecord.mk kx ⟨5⟩ (some 10) none DispatchCase.thinFinished).succ =
        some ts ∧ oltb (DispatchRecord.mk kx ⟨5⟩ (some 10) none
          DispatchCase.thinFinished).commonStart ts = true) :=
  common_start_deliveries c5ops (stateOf (runOps initState c5ops)) rfl
    (DispatchRecord.mk kx ⟨5⟩ (some 10) none DispatchCase.thinFinished) (by decide)

/-- Counterexample to C6 as stated: after the cold-thin halt of scenario
c6ops, dispatch halted with streams present, but the recorded blocker is
stream A, whose FIFO still holds the item at time 5 — no stream at all was
observed with an empty FIFO during the last scan. -/
theorem blocker_claim_cex :
    runOps initState c6ops = .ok (stateOf (runOps initState c6ops)) ∧
    (stateOf (runOps initState c6ops)).queues ≠ [] ∧
    (stateOf (runOps initState c6ops)).blocker = kx ∧
    findQueue kx (stateOf (runOps initState c6ops)).queues = some ⟨[⟨5⟩], false⟩ ∧
    decide (∃ e ∈ (stateOf (runOps initState c6ops)).queues,
      e.1 = (stateOf (runOps initState c6ops)).blocker ∧ e.2.items = [] ∧
      e.2.finished = false) = false :=
  ⟨rfl, by decide, by decide, by decide, by decide⟩

/-- C6 (amended): whenever a Dispatch call halts while streams are still
present, GetBlocker afterwards succeeds and names an unfinished stream that
either was observed with an empty FIFO during the last scan (its FIFO is
still empty at the halt), or is the cold-thin candidate: its FIFO holds
exactly one item, whose timestamp is strictly below the cached common start
time of its trajectory. -/
theorem blocker_discipline (s s1 : State) (h : Dispatch s = .ok s1)
    (hne : s1.queues ≠ []) :
    GetBlocker s1 = .ok s1.blocker ∧
    ∃ e ∈ s1.queues, e.1 = s1.blocker ∧ e.2.finished = false ∧
      (e.2.items = [] ∨ ∃ d cst, e.2.items = [d] ∧
        lookupC e.1.trajectoryId s1.commonStartTimes = some cst ∧
        oleb cst d.time = false) := by
  unfold Dispatch at h
  rcases dispatchF_halt_shape _ _ _ h with h1 | ⟨e, he, hk, hfin, hl⟩
  · exact absurd h1 hne
  · refine ⟨?_, e, he, hk, hfin, hl⟩
    unfold GetBlocker
    rw [if_neg hne]

/-- Witness for C6 (amended): a single empty unfinished stream blocks. -/
theorem blocker_discipline_witness :
    GetBlocker (stateOf (Dispatch c6wSt)) = .ok (stateOf (Dispatch c6wSt)).blocker ∧
    ∃ e ∈ (stateOf (Dispatch c6wSt)).queues,
      e.1 = (stateOf (Dispatch c6wSt)).blocker ∧ e.2.finished = false ∧
      (e.2.items = [] ∨ ∃ d cst, e.2.items = [d] ∧
        lookupC e.1.trajectoryId (stateOf (Dispatch c6wSt)).commonStartTimes = some cst ∧
        oleb cst d.time = false) :=
  blocker_discipline c6wSt (stateOf (Dispatch c6wSt)) rfl (by decide)

/-- Counterexample to C7 as stated: after registering stream A and finishing
it, the dispatch drive erases the record, the collection is empty, and
GetBlocker is fatal even though a stream had been registered. -/
theorem getBlocker_claim_cex :
    runOps initState c7ops = .ok (stateOf (runOps initState c7ops)) ∧
    GetBlocker (stateOf (runOps initState c7ops)) = .error Fatal.getBlockerOnEmpty :=
  ⟨rfl, rfl⟩

/-- C7 (amended): GetBlocker returns the last-recorded blocker key and is
fatal exactly when the collection is currently empty — which is reachable
even after streams were registered, once every record has been erased. -/
theorem getBlocker_spec (s : State) :
    GetBlocker s = if s.queues = [] then .error Fatal.getBlockerOnEmpty
      else .ok s.blocker := rfl

/-- C8: a cached common start time is never updated afterwards — no later
operation sequence (including later stream registrations and pushes) changes
it — and on first touch it is computed and cached in one step from the head
timestamps at that moment. -/
theorem common_start_cache_immutable (s : State) (traj : Int) (v : Option Int)
    (ops : List Op) (s1 : State) (hv : lookupC traj s.commonStartTimes = some v)
    (h : runOps s ops = .ok s1) :
    lookupC traj s1.commonStartTimes = some v ∧
    (∀ (cache : List (Int × Option Int)) (qs : List (QueueKey × Queue))
      (cst : Option Int) (cache2 : List (Int × Option Int)),
      lookupC traj cache = none → GetCommonStartTime cache traj qs = .ok (cst, cache2) →
      cache2 = (traj, cst) :: cache ∧ lookupC traj cache2 = some cst) := by
  refine ⟨(runOps_step ops s s1 h).2.2 traj v hv, ?_⟩
  intro cache qs cst cache2 hnone hget
  unfold GetCommonStartTime at hget
  rw [hnone] at hget
  cases hm : trajHeadMax traj none qs with
  | error e => rw [hm] at hget; simp at hget
  | ok t =>
    rw [hm] at hget
    simp at hget
    obtain ⟨h1, h2⟩ := hget
    subst h1
    refine ⟨h2.symm, ?_⟩
    rw [← h2]
    simp [lookupC]

/-- Witness for C8: a cache entry for trajectory 0 survives a registration
and a push, and a fresh computation caches its value at the head of the
cache. -/
theorem common_start_cache_immutable_witness :
    lookupC 0 (stateOf (runOps c8wSt c8wOps)).commonStartTimes = some (some 5) ∧
    ([((0 : Int), some (50 : Int))] = [(0, some 50)] ∧
      lookupC 0 [((0 : Int), some (50 : Int))] = some (some 50)) :=
  ⟨(common_start_cache_immutable c8wSt 0 (some 5) c8wOps
      (stateOf (runOps c8wSt c8wOps)) rfl rfl).1,
   (common_start_cache_immutable c8wSt 0 (some 5) c8wOps
      (stateOf (runOps c8wSt c8wOps)) rfl rfl).2 [] [(kx, ⟨[⟨50⟩], false⟩)]
      (some 50) [(0, some 50)] rfl rfl⟩

/-- C9: the unguarded Peek dereferences inside GetCommonStartTime and the
re-peek after the pop in the cold-deep branch never dereference a null
pointer: no Dispatch run and no operation sequence from any state ever
produces the null-dereference crash. -/
theorem no_null_deref :
    (∀ (n : Nat) (s : State), isNullDeref (DispatchF n s) = false) ∧
    (∀ (ops : List Op) (s : State), isNullDeref (runOps s ops) = false) :=
  ⟨fun n s => isNullDeref_eq_false (dispatchF_ne_nullDeref n s),
   fun ops s => isNullDeref_eq_false (runOps_ne_nullDeref ops s)⟩

/-- C10: Add on a stream whose finished flag is already true is accepted
without any error or check: the item is pushed onto the finished stream's
FIFO and dispatch runs exactly as for an unfinished stream; concretely, in
c10ops the item A at 7 pushed after A was finished is delivered. -/
theorem add_on_finished_queue (s : State) (k : QueueKey) (d : Data) (q : Queue)
    (hf : findQueue k s.queues = some q) (_hfin : q.finished = true) :
    Add s k d = Dispatch { s with queues := pushItem k d s.queues,
                                  accepted := s.accepted ++ [(k, d)] } ∧
    (kx, (7 : Int)) ∈ dispatchedKT (stateOf (runOps initState c10ops)) := by
  constructor
  · unfold Add
    rw [hf]
  · decide

/-- Witness for C10 at a collator whose only stream is finished and
non-empty. -/
theorem add_on_finished_queue_witness :
    (Add c10wSt kx ⟨7⟩ = Dispatch { c10wSt with
        queues := pushItem kx ⟨7⟩ c10wSt.queues,
        accepted := c10wSt.accepted ++ [(kx, ⟨7⟩)] } ∧
      (kx, (7 : Int)) ∈ dispatchedKT (stateOf (runOps initState c10ops))) :=
  add_on_finished_queue c10wSt kx ⟨7⟩ ⟨[⟨5⟩], true⟩ rfl rfl

end OrderedMultiQueue
